import Mathlib

/-!
Verification development for the happy-faster-code repository code-intelligence
engine (crates/happy-core).  The Rust data structures are shallowly embedded:
hash maps become association lists, `usize` becomes `Nat`, strings are Lean
strings (or lists of Unicode code points where case mapping matters), and
floating-point scores become exact rationals with the logarithm kept abstract.
-/

namespace Happy

/-! ## Association-list maps (embedding of HashMap / DashMap) -/

/-- Lookup: first entry with the given key (hash maps have unique keys). -/
def mget {κ α : Type} [DecidableEq κ] : List (κ × α) → κ → Option α
  | [], _ => none
  | e :: rest, k => if e.1 = k then some e.2 else mget rest k

/-- Removal of a key (`HashMap::remove` / `DashMap::remove`). -/
def mdel {κ α : Type} [DecidableEq κ] : List (κ × α) → κ → List (κ × α)
  | [], _ => []
  | e :: rest, k => if e.1 = k then mdel rest k else e :: mdel rest k

/-- Insert-or-overwrite (`HashMap::insert`). -/
def mput {κ α : Type} [DecidableEq κ] : List (κ × α) → κ → α → List (κ × α)
  | [], k, v => [(k, v)]
  | e :: rest, k, v => if e.1 = k then (k, v) :: rest else e :: mput rest k v

/-- `entry(k).or_default().push(v)` for list-valued maps. -/
def mpush {κ α : Type} [DecidableEq κ] : List (κ × List α) → κ → α → List (κ × List α)
  | [], k, v => [(k, [v])]
  | e :: rest, k, v => if e.1 = k then (e.1, e.2 ++ [v]) :: rest else e :: mpush rest k v

theorem mget_mdel_self {κ α : Type} [DecidableEq κ] (m : List (κ × α)) (k : κ) :
    mget (mdel m k) k = none := by
  induction m with
  | nil => rfl
  | cons e rest ih =>
    by_cases h : e.1 = k
    · simpa [mdel, h] using ih
    · simpa [mdel, h, mget] using ih

theorem mget_mdel_ne {κ α : Type} [DecidableEq κ] (m : List (κ × α)) (k k' : κ)
    (h : k' ≠ k) : mget (mdel m k) k' = mget m k' := by
  have hks : ¬ k = k' := fun hh => h hh.symm
  induction m with
  | nil => rfl
  | cons e rest ih =>
    by_cases he : e.1 = k
    · have h2 : e.1 ≠ k' := by rw [he]; exact hks
      simp [mdel, he, mget, h2, hks, ih]
    · by_cases he' : e.1 = k'
      · simp [mdel, he, mget, he', h, hks]
      · simp [mdel, he, mget, he', ih]

theorem mem_mdel {κ α : Type} [DecidableEq κ] {m : List (κ × α)} {k : κ}
    {e : κ × α} (h : e ∈ mdel m k) : e ∈ m ∧ e.1 ≠ k := by
  induction m with
  | nil => simp [mdel] at h
  | cons e' rest ih =>
    by_cases he : e'.1 = k
    · rw [mdel, if_pos he] at h
      have h' := ih h
      exact ⟨List.mem_cons_of_mem _ h'.1, h'.2⟩
    · rw [mdel, if_neg he] at h
      rcases List.mem_cons.mp h with h1 | h1
      · exact ⟨by simp [h1], by rw [h1]; exact he⟩
      · have h' := ih h1
        exact ⟨List.mem_cons_of_mem _ h'.1, h'.2⟩

theorem mem_foldl_mdel {κ α : Type} [DecidableEq κ] (ks : List κ)
    (m : List (κ × α)) (e : κ × α)
    (h : e ∈ ks.foldl (fun acc k => mdel acc k) m) : e ∈ m ∧ e.1 ∉ ks := by
  induction ks generalizing m with
  | nil => exact ⟨h, by simp⟩
  | cons k rest ih =>
    have h' := ih (mdel m k) h
    have h'' := mem_mdel h'.1
    refine ⟨h''.1, ?_⟩
    intro hmem
    rcases List.mem_cons.mp hmem with h1 | h1
    · exact h''.2 h1
    · exact h'.2 h1

theorem mget_mput_self {κ α : Type} [DecidableEq κ] (m : List (κ × α)) (k : κ) (v : α) :
    mget (mput m k v) k = some v := by
  induction m with
  | nil => simp [mput, mget]
  | cons e rest ih =>
    by_cases h : e.1 = k
    · simp [mput, h, mget]
    · simp [mput, h, mget, ih]

theorem mget_mput_ne {κ α : Type} [DecidableEq κ] (m : List (κ × α)) (k k' : κ) (v : α)
    (h : k' ≠ k) : mget (mput m k v) k' = mget m k' := by
  have h2 : ¬ k = k' := fun hh => h hh.symm
  induction m with
  | nil => simp [mput, mget, h2]
  | cons e rest ih =>
    by_cases he : e.1 = k
    · have h3 : ¬ e.1 = k' := by rw [he]; exact h2
      simp [mput, he, mget, h2, h3]
    · by_cases he' : e.1 = k'
      · simp [mput, he, mget, he', h, h2]
      · simp [mput, he, mget, he', ih]

/-! ## GlobalIndex (crates/happy-core/src/global_index/mod.rs)

`file_map : file_path → module path`, `module_map : module path → file_path`,
`export_map : symbol name → [(file_path, element_id)]`. -/

structure GlobalIndex where
  file_map : List (String × String)
  module_map : List (String × String)
  export_map : List (String × List (String × String))
deriving DecidableEq

def GlobalIndex.new : GlobalIndex := ⟨[], [], []⟩

/-- `GlobalIndex::resolve_module`. -/
def resolveModule (gi : GlobalIndex) (module_path : String) : Option String :=
  mget gi.module_map module_path

/-- `GlobalIndex::resolve_symbol`. -/
def resolveSymbol (gi : GlobalIndex) (symbol : String) : List (String × String) :=
  (mget gi.export_map symbol).getD []

/-- `GlobalIndex::file_to_module`. -/
def fileToModule (gi : GlobalIndex) (file_path : String) : Option String :=
  mget gi.file_map file_path

/-- `GlobalIndex::remove_file`: drop the bimap entries for the file, then purge
every `export_map` posting whose file path matches, deleting emptied keys. -/
def giRemoveFile (gi : GlobalIndex) (file_path : String) : GlobalIndex :=
  let module_map :=
    match mget gi.file_map file_path with
    | some module_path => mdel gi.module_map module_path
    | none => gi.module_map
  let purged := gi.export_map.map (fun e => (e.1, e.2.filter (fun pr => decide (pr.1 ≠ file_path))))
  let empty_keys := (purged.filter (fun e => e.2.isEmpty)).map (fun e => e.1)
  let export_map := empty_keys.foldl (fun acc k => mdel acc k) purged
  { file_map := mdel gi.file_map file_path, module_map, export_map }

/-! ## Resolvers (module_resolver.rs, symbol_resolver.rs) -/

/-- `parser::imports::ImportInfo`. -/
structure ImportInfo where
  module : String
  names : List String
  level : Nat
  start_line : Nat
  end_line : Nat
deriving DecidableEq

/-- The text before the last `'.'` of a module path (`str::rfind('.')` slice). -/
def beforeLastDot (m : String) : String :=
  ⟨(((m.toList.reverse).dropWhile (fun c => c != '.')).drop 1).reverse⟩

/-- `ModuleResolver::resolve_absolute_import`. -/
def resolveAbsoluteImport (gi : GlobalIndex) (imp : ImportInfo) : Option String :=
  match resolveModule gi imp.module with
  | some file => some file
  | none =>
    match resolveModule gi (imp.module ++ ".__init__") with
    | some file => some file
    | none =>
      if imp.module.toList.contains '.' then
        match resolveModule gi (beforeLastDot imp.module) with
        | some file => some file
        | none => none
      else none

/-- `ModuleResolver::resolve_relative_import`. -/
def resolveRelativeImport (gi : GlobalIndex) (imp : ImportInfo) (current_file : String) :
    Option String :=
  match fileToModule gi current_file with
  | none => none
  | some current_module =>
    let parts := current_module.splitOn "."
    if imp.level > parts.length then none
    else
      let base := String.intercalate "." (parts.take (parts.length - imp.level))
      let target_module :=
        if imp.module = "" then base
        else if base = "" then imp.module
        else base ++ "." ++ imp.module
      resolveModule gi target_module

/-- `ModuleResolver::resolve_import`. -/
def resolveImport (gi : GlobalIndex) (imp : ImportInfo) (current_file : String) :
    Option String :=
  if imp.level > 0 then resolveRelativeImport gi imp current_file
  else resolveAbsoluteImport gi imp

/-- `SymbolResolver::resolve_in_context`: narrow `resolve` to postings whose
file's module path starts with one of the imported module names. -/
def resolveInContext (gi : GlobalIndex) (symbol : String) (_current_file : String)
    (imported_modules : List String) : List (String × String) :=
  let all := resolveSymbol gi symbol
  if imported_modules.isEmpty then all
  else
    all.filter (fun pr =>
      match fileToModule gi pr.1 with
      | some module => imported_modules.any (fun m => m.toList.isPrefixOf module.toList)
      | none => false)

/-! ## Claims C5, C6, C7 -/

/-- C5: after `GlobalIndex::remove_file(p)`, `file_map[p]` is absent; the
`module_map` key that was `file_map[p]` before the call is absent; no
`export_map` posting mentions file `p`; and every `export_map` key whose vector
became empty has been deleted. -/
theorem gi_remove_file_purges (gi : GlobalIndex) (p : String) :
    mget (giRemoveFile gi p).file_map p = none ∧
    (∀ m, mget gi.file_map p = some m → mget (giRemoveFile gi p).module_map m = none) ∧
    (∀ e ∈ (giRemoveFile gi p).export_map, (∀ pr ∈ e.2, pr.1 ≠ p) ∧ e.2 ≠ []) := by
  refine ⟨mget_mdel_self _ _, ?_, ?_⟩
  · intro m hm
    simp only [giRemoveFile, hm]
    exact mget_mdel_self _ _
  · intro e he
    simp only [giRemoveFile] at he
    have h1 := mem_foldl_mdel _ _ _ he
    have h2 := h1.1
    rcases List.mem_map.mp h2 with ⟨x, hx, hxe⟩
    constructor
    · intro pr hpr
      rw [← hxe] at hpr
      have := List.mem_filter.mp hpr
      simpa using this.2
    · intro hemp
      apply h1.2
      refine List.mem_map.mpr ⟨e, List.mem_filter.mpr ⟨h2, ?_⟩, rfl⟩
      simp [hemp]

def giFixtureA : GlobalIndex :=
  { file_map := [("a.py", "a")]
    module_map := [("a", "a.py")]
    export_map := [("f", [("a.py", "id1"), ("b.py", "id2")]), ("g", [("a.py", "id3")])] }

theorem gi_remove_file_purges_witness :
    mget giFixtureA.file_map "a.py" = some "a" ∧
    ("f", [("b.py", "id2")]) ∈ (giRemoveFile giFixtureA "a.py").export_map ∧
    ("b.py", "id2") ∈ [("b.py", "id2")] ∧
    mget (giRemoveFile giFixtureA "a.py").module_map "a" = none ∧
    ("b.py", "id2").1 ≠ "a.py" := by
  have h := gi_remove_file_purges giFixtureA "a.py"
  have hmem : ("f", [("b.py", "id2")]) ∈ (giRemoveFile giFixtureA "a.py").export_map := by
    decide
  exact ⟨by decide, hmem, by decide,
    h.2.1 "a" (by decide), (h.2.2 _ hmem).1 _ (by decide)⟩

/-- C6: for an absolute import (`level == 0`), `resolve_import` returns
`module_map[module]` when present, else `module_map[module ++ ".__init__"]`
when present, else (when the module contains a dot) `module_map[parent]` for
the parent prefix before the last dot, else absent. -/
theorem resolve_absolute_import_cascade (gi : GlobalIndex) (imp : ImportInfo)
    (current_file : String) (hlvl : imp.level = 0) :
    (∀ file, mget gi.module_map imp.module = some file →
      resolveImport gi imp current_file = some file) ∧
    (mget gi.module_map imp.module = none →
      ∀ file, mget gi.module_map (imp.module ++ ".__init__") = some file →
        resolveImport gi imp current_file = some file) ∧
    (mget gi.module_map imp.module = none →
      mget gi.module_map (imp.module ++ ".__init__") = none →
      imp.module.toList.contains '.' = true →
      resolveImport gi imp current_file = mget gi.module_map (beforeLastDot imp.module)) ∧
    (mget gi.module_map imp.module = none →
      mget gi.module_map (imp.module ++ ".__init__") = none →
      imp.module.toList.contains '.' = false →
      resolveImport gi imp current_file = none) := by
  have hngt : ¬ imp.level > 0 := by omega
  refine ⟨?_, ?_, ?_, ?_⟩
  · intro file hf
    simp [resolveImport, hngt, resolveAbsoluteImport, resolveModule, hf]
  · intro h1 file hf
    simp [resolveImport, hngt, resolveAbsoluteImport, resolveModule, h1, hf]
  · intro h1 h2 hdot
    have hdot' : '.' ∈ imp.module.data := by simpa using hdot
    cases hm : mget gi.module_map (beforeLastDot imp.module) with
    | none => simp [resolveImport, hngt, resolveAbsoluteImport, resolveModule, h1, h2, hdot', hm]
    | some file =>
      simp [resolveImport, hngt, resolveAbsoluteImport, resolveModule, h1, h2, hdot', hm]
  · intro h1 h2 hdot
    have hdot' : ¬ '.' ∈ imp.module.data := by simpa using hdot
    simp [resolveImport, hngt, resolveAbsoluteImport, resolveModule, h1, h2, hdot']

def giFixtureB : GlobalIndex :=
  { file_map := [], module_map := [("pkg", "pkg-init.py")], export_map := [] }

def impFixtureB : ImportInfo :=
  { module := "pkg.missing", names := [], level := 0, start_line := 1, end_line := 1 }

theorem resolve_absolute_import_cascade_witness :
    impFixtureB.level = 0 ∧
    mget giFixtureB.module_map "pkg.missing" = none ∧
    mget giFixtureB.module_map ("pkg.missing" ++ ".__init__") = none ∧
    "pkg.missing".toList.contains '.' = true ∧
    resolveImport giFixtureB impFixtureB "cur.py" =
      mget giFixtureB.module_map (beforeLastDot "pkg.missing") ∧
    resolveImport giFixtureB impFixtureB "cur.py" = some "pkg-init.py" := by
  refine ⟨rfl, by decide, by decide, by decide, ?_, by decide⟩
  exact (resolve_absolute_import_cascade giFixtureB impFixtureB "cur.py" rfl).2.2.1
    (by decide) (by decide) (by decide)

/-- C7: `resolve_in_context` returns `resolve(name)` filtered to postings whose
file's module path starts with some entry of `imported_modules`; with an empty
`imported_modules` the unfiltered list is returned. -/
theorem resolve_in_context_filters (gi : GlobalIndex) (name current_file : String)
    (mods : List String) :
    (mods = [] → resolveInContext gi name current_file mods = resolveSymbol gi name) ∧
    (mods ≠ [] →
      resolveInContext gi name current_file mods =
        (resolveSymbol gi name).filter (fun pr =>
          match fileToModule gi pr.1 with
          | some module => mods.any (fun m => m.toList.isPrefixOf module.toList)
          | none => false) ∧
      ∀ pr, pr ∈ resolveInContext gi name current_file mods ↔
        pr ∈ resolveSymbol gi name ∧
          ∃ module, fileToModule gi pr.1 = some module ∧
            ∃ m ∈ mods, m.toList.isPrefixOf module.toList = true) := by
  constructor
  · intro hmods
    simp [resolveInContext, hmods]
  · intro hmods
    have hne : mods.isEmpty = false := by
      cases mods with
      | nil => exact absurd rfl hmods
      | cons a l => rfl
    constructor
    · simp [resolveInContext, hne]
    · intro pr
      constructor
      · intro hpr
        simp only [resolveInContext, hne, Bool.false_eq_true, if_false] at hpr
        have h := List.mem_filter.mp hpr
        refine ⟨h.1, ?_⟩
        have h2 := h.2
        cases hm : fileToModule gi pr.1 with
        | none => rw [hm] at h2; simp at h2
        | some module =>
          rw [hm] at h2
          simp only [List.any_eq_true] at h2
          rcases h2 with ⟨m, hmmem, hmpre⟩
          exact ⟨module, rfl, m, hmmem, hmpre⟩
      · rintro ⟨hmem, module, hmod, m, hmmem, hmpre⟩
        simp only [resolveInContext, hne, Bool.false_eq_true, if_false]
        refine List.mem_filter.mpr ⟨hmem, ?_⟩
        rw [hmod]
        simp only [List.any_eq_true]
        exact ⟨m, hmmem, hmpre⟩

def giFixtureC : GlobalIndex :=
  { file_map := [("a.py", "pa.x"), ("b.py", "qb")]
    module_map := []
    export_map := [("f", [("a.py", "i1"), ("b.py", "i2"), ("c.py", "i3")])] }

theorem resolve_in_context_filters_witness :
    (([] : List String) = [] ∧
      resolveInContext giFixtureC "f" "x.py" [] = resolveSymbol giFixtureC "f") ∧
    (["pa"] ≠ ([] : List String) ∧
      resolveInContext giFixtureC "f" "x.py" ["pa"] =
        (resolveSymbol giFixtureC "f").filter (fun pr =>
          match fileToModule giFixtureC pr.1 with
          | some module => ["pa"].any (fun m => m.toList.isPrefixOf module.toList)
          | none => false) ∧
      resolveInContext giFixtureC "f" "x.py" ["pa"] = [("a.py", "i1")]) := by
  refine ⟨⟨rfl, (resolve_in_context_filters giFixtureC "f" "x.py" []).1 rfl⟩,
    ⟨by decide, ?_, by decide⟩⟩
  exact ((resolve_in_context_filters giFixtureC "f" "x.py" ["pa"]).2 (by decide)).1

/-! ## Tokenizer (crates/happy-core/src/utils/mod.rs) and BM25 index
(crates/happy-core/src/vector/bm25.rs)

Text is embedded as a list of Unicode code points.  `str::to_lowercase` is
modelled on the ASCII letters (the only case mapping the engine's inputs
exercise); `split_whitespace` splits on the ASCII whitespace code points.
Floating-point scores become exact rationals; `f64::ln` is kept abstract as a
parameter `lnQ`. -/

def charLower (c : Nat) : Nat := if 65 ≤ c ∧ c ≤ 90 then c + 32 else c

def charUpper (c : Nat) : Nat := if 97 ≤ c ∧ c ≤ 122 then c - 32 else c

def isWs (c : Nat) : Bool :=
  c == 32 || c == 9 || c == 10 || c == 11 || c == 12 || c == 13

/-- `split_whitespace`: maximal runs of non-whitespace, empties skipped. -/
def splitWsAux : List Nat → List Nat → List (List Nat)
  | cur, [] => if cur = [] then [] else [cur.reverse]
  | cur, c :: rest =>
    if isWs c then
      if cur = [] then splitWsAux [] rest
      else cur.reverse :: splitWsAux [] rest
    else splitWsAux (c :: cur) rest

/-- `utils::tokenize`: lowercase, then split on whitespace. -/
def tokenize (text : List Nat) : List (List Nat) :=
  splitWsAux [] (text.map charLower)

structure BM25Index where
  documents : List (String × List (List Nat))
  inverted_index : List (List Nat × List String)
  doc_lengths : List (String × Nat)
  avg_doc_len : ℚ
  num_docs : Nat
  k1 : ℚ
  b : ℚ
deriving DecidableEq

def BM25Index.new : BM25Index :=
  { documents := [], inverted_index := [], doc_lengths := [],
    avg_doc_len := 0, num_docs := 0, k1 := 3 / 2, b := 3 / 4 }

/-- `BM25Index::add_document`. -/
def addDocument (idx : BM25Index) (doc_id : String) (text : List Nat) : BM25Index :=
  let tokens := tokenize text
  let doc_len := tokens.length
  let inverted_index := tokens.foldl (fun m tok => mpush m tok doc_id) idx.inverted_index
  let documents := mput idx.documents doc_id tokens
  let doc_lengths := mput idx.doc_lengths doc_id doc_len
  let num_docs := idx.num_docs + 1
  let total_len := (doc_lengths.map (fun e => e.2)).sum
  { idx with
    documents := documents
    inverted_index := inverted_index
    doc_lengths := doc_lengths
    num_docs := num_docs
    avg_doc_len := (total_len : ℚ) / (num_docs : ℚ) }

/-- `BM25Index::remove_document`. -/
def removeDocument (idx : BM25Index) (doc_id : String) : BM25Index :=
  match mget idx.documents doc_id with
  | none => idx
  | some tokens =>
    let documents := mdel idx.documents doc_id
    let inverted_index := tokens.foldl (fun m tok =>
      match mget m tok with
      | some doc_ids =>
        let doc_ids' := doc_ids.filter (fun i => decide (i ≠ doc_id))
        if doc_ids'.isEmpty then mdel m tok else mput m tok doc_ids'
      | none => m) idx.inverted_index
    let doc_lengths := mdel idx.doc_lengths doc_id
    let num_docs := idx.num_docs - 1
    let avg_doc_len :=
      if num_docs > 0 then ((doc_lengths.map (fun e => e.2)).sum : ℚ) / (num_docs : ℚ)
      else 0
    { idx with
      documents := documents
      inverted_index := inverted_index
      doc_lengths := doc_lengths
      num_docs := num_docs
      avg_doc_len := avg_doc_len }

/-- `BM25Index::len`. -/
def bm25Len (idx : BM25Index) : Nat := idx.num_docs

/-- The scoring loop of `BM25Index::search`, applied to already-tokenized
query tokens. -/
def searchTokens (lnQ : ℚ → ℚ) (idx : BM25Index) (query_tokens : List (List Nat))
    (k : Nat) : List (String × ℚ) :=
  let scores := query_tokens.foldl (fun sc token =>
    match mget idx.inverted_index token with
    | none => sc
    | some doc_ids =>
      let df : ℚ := doc_ids.length
      let idf := lnQ (((idx.num_docs : ℚ) - df + 1 / 2) / (df + 1 / 2) + 1)
      let tf_map := doc_ids.foldl (fun m d => mput m d ((mget m d).getD 0 + 1)) []
      tf_map.foldl (fun sc2 e =>
        let doc_len : ℚ := (((mget idx.doc_lengths e.1).getD 1 : Nat) : ℚ)
        let tf : ℚ := (e.2 : ℚ)
        let numerator := tf * (idx.k1 + 1)
        let denominator := tf + idx.k1 * (1 - idx.b + idx.b * doc_len / idx.avg_doc_len)
        let score := idf * numerator / denominator
        mput sc2 e.1 ((mget sc2 e.1).getD 0 + score)) sc) []
  let results := scores.mergeSort (fun a b => b.2 ≤ a.2)
  results.take k

/-- `BM25Index::search`: tokenize the query, then score. -/
def bm25Search (lnQ : ℚ → ℚ) (idx : BM25Index) (query : List Nat) (k : Nat) :
    List (String × ℚ) :=
  searchTokens lnQ idx (tokenize query) k

/-! ## Claims C2, C9, C10 -/

/-- C2: the claim fails on the code.  `add_document` increments `num_docs` on
every call even when the id overwrites an already-stored document, so after
`add("a"); add("a"); remove("a")` the index reports `len() == 1` while zero
documents are stored (the spec's distinct-ids count is 0). -/
theorem bm25_len_duplicate_add_discrepancy :
    bm25Len (removeDocument (addDocument (addDocument BM25Index.new "a" [120]) "a" [121]) "a")
      = 1 ∧
    (removeDocument (addDocument (addDocument BM25Index.new "a" [120]) "a" [121]) "a").documents
      = [] := by
  exact ⟨rfl, rfl⟩

theorem charLower_charUpper (c : Nat) : charLower (charUpper c) = charLower c := by
  by_cases h : 97 ≤ c ∧ c ≤ 122
  · have e1 : charUpper c = c - 32 := by simp only [charUpper, if_pos h]
    rw [e1]
    have h1 : 65 ≤ c - 32 ∧ c - 32 ≤ 90 := by omega
    have h2 : ¬ (65 ≤ c ∧ c ≤ 90) := by omega
    simp only [charLower, if_pos h1, if_neg h2]
    omega
  · have e1 : charUpper c = c := by simp only [charUpper, if_neg h]
    rw [e1]

theorem charLower_charLower (c : Nat) : charLower (charLower c) = charLower c := by
  by_cases h : 65 ≤ c ∧ c ≤ 90
  · have e1 : charLower c = c + 32 := by simp only [charLower, if_pos h]
    rw [e1]
    have h2 : ¬ (65 ≤ c + 32 ∧ c + 32 ≤ 90) := by omega
    simp only [charLower, if_neg h2]
  · have e1 : charLower c = c := by simp only [charLower, if_neg h]
    rw [e1]
    exact e1

theorem tokenize_map_charUpper (q : List Nat) :
    tokenize (q.map charUpper) = tokenize q := by
  unfold tokenize
  congr 1
  induction q with
  | nil => rfl
  | cons c rest ih => simp [charLower_charUpper, ih]

theorem tokenize_map_charLower (q : List Nat) :
    tokenize (q.map charLower) = tokenize q := by
  unfold tokenize
  congr 1
  induction q with
  | nil => rfl
  | cons c rest ih => simp [charLower_charLower, ih]

/-- C9: BM25 search is case-insensitive — uppercasing or lowercasing every
letter of the query yields the same `(id, score)` result list, because the
tokenizer lowercases both documents and queries before matching. -/
theorem bm25_search_case_insensitive (lnQ : ℚ → ℚ) (idx : BM25Index) (q : List Nat)
    (k : Nat) :
    bm25Search lnQ idx (q.map charUpper) k = bm25Search lnQ idx q k ∧
    bm25Search lnQ idx (q.map charLower) k = bm25Search lnQ idx q k := by
  unfold bm25Search
  rw [tokenize_map_charUpper, tokenize_map_charLower]
  exact ⟨rfl, rfl⟩

/-- C10: `remove_document` on an id that is not stored is a no-op — the whole
index state (documents, inverted index, doc lengths, num_docs, average) is
unchanged. -/
theorem remove_document_absent_noop (idx : BM25Index) (doc_id : String)
    (h : mget idx.documents doc_id = none) : removeDocument idx doc_id = idx := by
  unfold removeDocument
  rw [h]

theorem remove_document_absent_noop_witness :
    mget (addDocument BM25Index.new "d1" [102, 111, 111]).documents "zz" = none ∧
    removeDocument (addDocument BM25Index.new "d1" [102, 111, 111]) "zz"
      = addDocument BM25Index.new "d1" [102, 111, 111] := by
  exact ⟨rfl, remove_document_absent_noop _ _ rfl⟩

/-! ## Repository graph (crates/happy-core/src/graph/)

`petgraph::StableDiGraph` is embedded as an association list from node index
to node plus an explicit edge list; the stable graph's index-allocation policy
is abstracted by a fresh-index counter (indices are opaque handles).  The
DashMap secondary indices become association lists. -/

inductive ElementType
  | File | Class | Function | Method | Module | Import | Variable | Interface | Struct | Enum
deriving DecidableEq

inductive NodeKind
  | File | Module | Class | Function | Method | Variable | Interface | Struct | Enum
deriving DecidableEq

/-- `impl From<ElementType> for NodeKind`. -/
def nodeKindOfElementType : ElementType → NodeKind
  | ElementType.File => NodeKind.File
  | ElementType.Class => NodeKind.Class
  | ElementType.Function => NodeKind.Function
  | ElementType.Method => NodeKind.Method
  | ElementType.Module => NodeKind.Module
  | ElementType.Import => NodeKind.Module
  | ElementType.Variable => NodeKind.Variable
  | ElementType.Interface => NodeKind.Interface
  | ElementType.Struct => NodeKind.Struct
  | ElementType.Enum => NodeKind.Enum

structure CodeElement where
  id : String
  element_type : ElementType
  name : String
  file_path : String
  relative_path : String
  language : String
  start_line : Nat
  end_line : Nat
  code : String
  signature : Option String
  docstring : Option String
  summary : Option String
  metadata : List (String × String)
deriving DecidableEq

structure GraphNode where
  id : String
  kind : NodeKind
  name : String
  file_path : String
  start_line : Nat
  end_line : Nat
deriving DecidableEq

inductive EdgeKind
  | Imports | Inherits | Calls | Defines | References | Implements
deriving DecidableEq

structure RepositoryGraph where
  nodes : List (Nat × GraphNode)
  next_index : Nat
  edges : List (Nat × Nat × EdgeKind)
  id_to_node : List (String × Nat)
  name_to_nodes : List (String × List Nat)
  file_to_nodes : List (String × List Nat)
  element_arena : List (String × CodeElement)
  file_imports : List (String × List String)
  global_index : GlobalIndex
deriving DecidableEq

def RepositoryGraph.new : RepositoryGraph :=
  { nodes := [], next_index := 0, edges := [], id_to_node := [], name_to_nodes := []
    file_to_nodes := [], element_arena := [], file_imports := []
    global_index := GlobalIndex.new }

/-- `self.graph[idx]` (panics in Rust on a missing index; embedded as `Option`). -/
def getNode (g : RepositoryGraph) (idx : Nat) : Option GraphNode :=
  mget g.nodes idx

/-- `RepositoryGraph::add_node`. -/
def addNode (g : RepositoryGraph) (node : GraphNode) : RepositoryGraph × Nat :=
  let idx := g.next_index
  ({ g with
     nodes := g.nodes ++ [(idx, node)]
     next_index := idx + 1
     id_to_node := mput g.id_to_node node.id idx
     name_to_nodes := mpush g.name_to_nodes node.name idx
     file_to_nodes := mpush g.file_to_nodes node.file_path idx }, idx)

/-- Modify the value of an existing key (`DashMap::get_mut`); no-op when the
key is absent. -/
def madj {κ α : Type} [DecidableEq κ] : List (κ × α) → κ → (α → α) → List (κ × α)
  | [], _, _ => []
  | e :: rest, k, f => if e.1 = k then (e.1, f e.2) :: rest else e :: madj rest k f

/-- `str::contains(&str)`: substring containment. -/
def strContains (haystack needle : String) : Bool :=
  (haystack.toList.tails).any (fun t => needle.toList.isPrefixOf t)

/-- `RepositoryGraph::resolve_call_target`: layered call-target resolution
(same file, then symbol resolver with import context, then import-name
heuristic, then first candidate). -/
def resolveCallTarget (g : RepositoryGraph) (callee_name : String) (candidates : List Nat)
    (caller_file : String) (imported_names : List String) : Option Nat :=
  match candidates.find? (fun idx =>
      match getNode g idx with
      | some node => node.file_path == caller_file
      | none => false) with
  | some idx => some idx
  | none =>
    let resolved := resolveInContext g.global_index callee_name caller_file imported_names
    let p2 :=
      if resolved.isEmpty then none
      else
        match resolved.findSome? (fun r =>
            match mget g.id_to_node r.2 with
            | some idx => if candidates.contains idx then some idx else none
            | none => none) with
        | some idx => some idx
        | none =>
          match resolved.head? with
          | some r0 => mget g.id_to_node r0.2
          | none => none
    match p2 with
    | some idx => some idx
    | none =>
      let p3 :=
        if imported_names.isEmpty then none
        else candidates.find? (fun idx =>
          match getNode g idx with
          | some node =>
            imported_names.any (fun imp => strContains node.file_path imp || node.name == imp)
          | none => false)
      match p3 with
      | some idx => some idx
      | none => candidates.head?

/-! ## Claim C1 -/

/-- C1: whenever the candidate list contains a node defined in the caller's
file, `resolve_call_target` returns the first such candidate (Priority 1) —
never a node from another file. -/
theorem resolve_call_target_same_file (g : RepositoryGraph) (callee_name : String)
    (candidates : List Nat) (caller_file : String) (imported_names : List String)
    (h : ∃ idx ∈ candidates, ∃ node, getNode g idx = some node ∧
      node.file_path = caller_file) :
    ∃ j, resolveCallTarget g callee_name candidates caller_file imported_names = some j ∧
      candidates.find? (fun idx =>
        match getNode g idx with
        | some node => node.file_path == caller_file
        | none => false) = some j ∧
      ∃ node, getNode g j = some node ∧ node.file_path = caller_file := by
  rcases h with ⟨idx, hmem, node, hget, hfile⟩
  have hpred : (fun idx =>
      match getNode g idx with
      | some node => node.file_path == caller_file
      | none => false) idx = true := by
    simp only [hget]
    simp [hfile]
  have hsome : (candidates.find? (fun idx =>
      match getNode g idx with
      | some node => node.file_path == caller_file
      | none => false)).isSome := by
    rw [List.find?_isSome]
    exact ⟨idx, hmem, hpred⟩
  rcases Option.isSome_iff_exists.mp hsome with ⟨j, hj⟩
  refine ⟨j, ?_, hj, ?_⟩
  · unfold resolveCallTarget
    rw [hj]
  · have hpj := List.find?_some hj
    cases hgj : getNode g j with
    | none => rw [hgj] at hpj; cases hpj
    | some nodej =>
      rw [hgj] at hpj
      exact ⟨nodej, rfl, by simpa using hpj⟩

def nodeFixA : GraphNode :=
  { id := "f_a", kind := NodeKind.Function, name := "f", file_path := "a.py"
    start_line := 1, end_line := 2 }

def nodeFixB : GraphNode :=
  { id := "f_b", kind := NodeKind.Function, name := "f", file_path := "b.py"
    start_line := 1, end_line := 2 }

def graphFixtureA : RepositoryGraph :=
  { nodes := [(0, nodeFixA), (1, nodeFixB)]
    next_index := 2
    edges := []
    id_to_node := [("f_a", 0), ("f_b", 1)]
    name_to_nodes := [("f", [0, 1])]
    file_to_nodes := [("a.py", [0]), ("b.py", [1])]
    element_arena := []
    file_imports := []
    global_index := GlobalIndex.new }

theorem resolve_call_target_same_file_witness :
    (1 ∈ [0, 1] ∧ getNode graphFixtureA 1 = some nodeFixB ∧ nodeFixB.file_path = "b.py") ∧
    resolveCallTarget graphFixtureA "f" [0, 1] "b.py" [] = some 1 ∧
    getNode graphFixtureA 1 = some nodeFixB ∧ nodeFixB.file_path = "b.py" := by
  have h := resolve_call_target_same_file graphFixtureA "f" [0, 1] "b.py" []
    ⟨1, by decide, nodeFixB, by decide, rfl⟩
  rcases h with ⟨j, hres, hfind, _⟩
  have hone : ([0, 1].find? (fun idx =>
      match getNode graphFixtureA idx with
      | some node => node.file_path == "b.py"
      | none => false)) = some 1 := by decide
  rw [hone] at hfind
  have hj : j = 1 := (Option.some.inj hfind).symm
  rw [hj] at hres
  exact ⟨⟨by decide, by decide, rfl⟩, hres, by decide, rfl⟩

/-! ## remove_file (graph/mod.rs) and claim C4 -/

/-- One iteration of the removal loop in `RepositoryGraph::remove_file`:
purge the node's entry from `name_to_nodes`, delete its id from `id_to_node`
and `element_arena`, and remove the node (with its incident edges) from the
backing graph.  Indexing a missing node panics in Rust; that branch is
unreachable for well-formed graphs and embedded as a no-op. -/
def removeNodeData (g : RepositoryGraph) (idx : Nat) : RepositoryGraph :=
  match mget g.nodes idx with
  | none => g
  | some node =>
    { g with
      name_to_nodes :=
        madj g.name_to_nodes node.name (fun v => v.filter (fun i => decide (i ≠ idx)))
      id_to_node := mdel g.id_to_node node.id
      element_arena := mdel g.element_arena node.id
      nodes := mdel g.nodes idx
      edges := g.edges.filter (fun e => decide (e.1 ≠ idx) && decide (e.2.1 ≠ idx)) }

/-- `RepositoryGraph::remove_file`. -/
def removeFile (g : RepositoryGraph) (file_path : String) : RepositoryGraph :=
  let g' :=
    match mget g.file_to_nodes file_path with
    | none => g
    | some indices =>
      indices.foldl removeNodeData { g with file_to_nodes := mdel g.file_to_nodes file_path }
  { g' with file_imports := mdel g'.file_imports file_path }

/-- No secondary index still references node `idx` or element id `id`. -/
def NodePurged (g : RepositoryGraph) (idx : Nat) (id : String) : Prop :=
  (∀ e ∈ g.id_to_node, e.1 ≠ id ∧ e.2 ≠ idx) ∧
  (∀ e ∈ g.element_arena, e.1 ≠ id) ∧
  (∀ e ∈ g.name_to_nodes, idx ∉ e.2)

/-- Well-formedness of the secondary indices, maintained by `add_node`. -/
structure GraphWF (g : RepositoryGraph) : Prop where
  id_entries : ∀ e ∈ g.id_to_node, ∃ nd, mget g.nodes e.2 = some nd ∧ nd.id = e.1
  name_entries : ∀ e ∈ g.name_to_nodes, ∀ i ∈ e.2,
    ∃ nd, mget g.nodes i = some nd ∧ nd.name = e.1
  name_keys_nodup : (g.name_to_nodes.map (fun e => e.1)).Nodup
  file_entries : ∀ e ∈ g.file_to_nodes, ∀ i ∈ e.2,
    ∃ nd, mget g.nodes i = some nd ∧ nd.file_path = e.1
  file_vals_nodup : ∀ e ∈ g.file_to_nodes, e.2.Nodup
  nodes_lt : ∀ e ∈ g.nodes, e.1 < g.next_index
  node_ids_inj : ∀ e ∈ g.nodes, ∀ e' ∈ g.nodes, e.2.id = e'.2.id → e.1 = e'.1

theorem mget_some_mem {κ α : Type} [DecidableEq κ] {m : List (κ × α)} {k : κ} {v : α}
    (h : mget m k = some v) : (k, v) ∈ m := by
  induction m with
  | nil => cases h
  | cons e rest ih =>
    rw [mget] at h
    split at h
    · rename_i he
      rcases e with ⟨k0, v0⟩
      injection h with h
      subst h
      simp only at he
      subst he
      exact List.mem_cons_self _ _
    · exact List.mem_cons_of_mem _ (ih h)

theorem madj_keys {κ α : Type} [DecidableEq κ] (m : List (κ × α)) (k : κ) (f : α → α) :
    (madj m k f).map (fun e => e.1) = m.map (fun e => e.1) := by
  induction m with
  | nil => rfl
  | cons e rest ih =>
    by_cases he : e.1 = k
    · simp [madj, he]
    · simp [madj, he, ih]

theorem mem_madj {κ α : Type} [DecidableEq κ] {m : List (κ × α)} {k : κ} {f : α → α}
    {e : κ × α} (hnd : (m.map (fun e => e.1)).Nodup) (h : e ∈ madj m k f) :
    (e ∈ m ∧ e.1 ≠ k) ∨ (∃ v, (k, v) ∈ m ∧ e = (k, f v)) := by
  induction m with
  | nil => cases h
  | cons e0 rest ih =>
    rw [List.map_cons, List.nodup_cons] at hnd
    by_cases he0 : e0.1 = k
    · rw [madj, if_pos he0] at h
      rcases List.mem_cons.mp h with h1 | h1
      · right
        exact ⟨e0.2, by rw [← he0]; simp, by rw [h1, he0]⟩
      · left
        refine ⟨List.mem_cons_of_mem _ h1, ?_⟩
        intro hek
        apply hnd.1
        rw [he0, ← hek]
        exact List.mem_map.mpr ⟨e, h1, rfl⟩
    · rw [madj, if_neg he0] at h
      rcases List.mem_cons.mp h with h1 | h1
      · left
        exact ⟨by rw [h1]; exact List.mem_cons_self _ _, by rw [h1]; exact he0⟩
      · rcases ih hnd.2 h1 with ⟨h2, h3⟩ | ⟨v, h2, h3⟩
        · exact Or.inl ⟨List.mem_cons_of_mem _ h2, h3⟩
        · exact Or.inr ⟨v, List.mem_cons_of_mem _ h2, h3⟩

theorem mem_madj_weak {κ α : Type} [DecidableEq κ] {m : List (κ × α)} {k : κ} {f : α → α}
    {e : κ × α} (h : e ∈ madj m k f) :
    e ∈ m ∨ ∃ v, (e.1, v) ∈ m ∧ e = (e.1, f v) := by
  induction m with
  | nil => cases h
  | cons e0 rest ih =>
    by_cases he0 : e0.1 = k
    · rw [madj, if_pos he0] at h
      rcases List.mem_cons.mp h with h1 | h1
      · right
        refine ⟨e0.2, ?_, ?_⟩
        · rw [h1]
          exact List.mem_cons_self _ _
        · rw [h1]
      · exact Or.inl (List.mem_cons_of_mem _ h1)
    · rw [madj, if_neg he0] at h
      rcases List.mem_cons.mp h with h1 | h1
      · exact Or.inl (by rw [h1]; exact List.mem_cons_self _ _)
      · rcases ih h1 with h2 | ⟨v, h2, h3⟩
        · exact Or.inl (List.mem_cons_of_mem _ h2)
        · exact Or.inr ⟨v, List.mem_cons_of_mem _ h2, h3⟩

/-- `remove_node_data` only shrinks the secondary indices, so an already
purged node stays purged. -/
theorem nodePurged_removeNodeData {g : RepositoryGraph} {i : Nat} {id : String}
    (j : Nat) (h : NodePurged g i id) : NodePurged (removeNodeData g j) i id := by
  unfold removeNodeData
  cases hj : mget g.nodes j with
  | none => exact h
  | some node =>
    refine ⟨?_, ?_, ?_⟩
    · intro e he
      exact h.1 e (mem_mdel he).1
    · intro e he
      exact h.2.1 e (mem_mdel he).1
    · intro e he
      simp only at he
      rcases mem_madj_weak he with h1 | ⟨v, h1, h2⟩
      · exact h.2.2 e h1
      · intro hin
        rw [h2] at hin
        simp only at hin
        exact h.2.2 _ h1 (List.mem_of_mem_filter hin)

theorem removeNodeData_file_to_nodes (g : RepositoryGraph) (idx : Nat) :
    (removeNodeData g idx).file_to_nodes = g.file_to_nodes := by
  unfold removeNodeData
  cases mget g.nodes idx <;> rfl

theorem foldl_removeNodeData_file_to_nodes (l : List Nat) (s : RepositoryGraph) :
    (l.foldl removeNodeData s).file_to_nodes = s.file_to_nodes := by
  induction l generalizing s with
  | nil => rfl
  | cons a rest ih => rw [List.foldl_cons, ih, removeNodeData_file_to_nodes]

theorem nodePurged_foldl (l : List Nat) (s : RepositoryGraph) {i : Nat} {id : String}
    (h : NodePurged s i id) : NodePurged (l.foldl removeNodeData s) i id := by
  induction l generalizing s with
  | nil => exact h
  | cons a rest ih => exact ih _ (nodePurged_removeNodeData a h)

/-- Processing node `i` purges it, provided the indices reference it only
under its own id key and name key. -/
theorem removeNodeData_purges_self {g : RepositoryGraph} {i : Nat} {nd : GraphNode}
    (hnode : mget g.nodes i = some nd)
    (hid : ∀ e ∈ g.id_to_node, e.2 = i → e.1 = nd.id)
    (hname : ∀ e ∈ g.name_to_nodes, i ∈ e.2 → e.1 = nd.name)
    (hkeys : (g.name_to_nodes.map (fun e => e.1)).Nodup) :
    NodePurged (removeNodeData g i) i nd.id := by
  unfold removeNodeData
  rw [hnode]
  refine ⟨?_, ?_, ?_⟩
  · intro e he
    have h1 := mem_mdel he
    refine ⟨h1.2, ?_⟩
    intro h2
    exact h1.2 (hid e h1.1 h2)
  · intro e he
    exact (mem_mdel he).2
  · intro e he
    simp only at he
    rcases mem_madj hkeys he with ⟨h1, h2⟩ | ⟨v, h1, h2⟩
    · intro hin
      exact h2 (hname e h1 hin)
    · intro hin
      rw [h2] at hin
      simp only at hin
      have h3 := (List.mem_filter.mp hin).2
      simp at h3

theorem mget_nodes_removeNodeData {g : RepositoryGraph} (j i : Nat) (h : i ≠ j) :
    mget (removeNodeData g j).nodes i = mget g.nodes i := by
  unfold removeNodeData
  cases mget g.nodes j with
  | none => rfl
  | some node => exact mget_mdel_ne g.nodes j i h

theorem removeNodeData_name_keys (g : RepositoryGraph) (j : Nat) :
    (removeNodeData g j).name_to_nodes.map (fun e => e.1) =
      g.name_to_nodes.map (fun e => e.1) := by
  unfold removeNodeData
  cases mget g.nodes j with
  | none => rfl
  | some node => exact madj_keys _ _ _

/-- The pending facts about a not-yet-processed node survive one removal
step on a different node. -/
theorem pending_removeNodeData {g : RepositoryGraph} {i j : Nat} {nd : GraphNode}
    (hij : i ≠ j)
    (hnode : mget g.nodes i = some nd)
    (hid : ∀ e ∈ g.id_to_node, e.2 = i → e.1 = nd.id)
    (hname : ∀ e ∈ g.name_to_nodes, i ∈ e.2 → e.1 = nd.name) :
    mget (removeNodeData g j).nodes i = some nd ∧
    (∀ e ∈ (removeNodeData g j).id_to_node, e.2 = i → e.1 = nd.id) ∧
    (∀ e ∈ (removeNodeData g j).name_to_nodes, i ∈ e.2 → e.1 = nd.name) := by
  refine ⟨by rw [mget_nodes_removeNodeData j i hij]; exact hnode, ?_, ?_⟩
  · unfold removeNodeData
    cases mget g.nodes j with
    | none => exact hid
    | some node =>
      intro e he
      exact hid e (mem_mdel he).1
  · unfold removeNodeData
    cases mget g.nodes j with
    | none => exact hname
    | some node =>
      intro e he hin
      simp only at he
      rcases mem_madj_weak he with h1 | ⟨v, h1, h2⟩
      · exact hname e h1 hin
      · rw [h2] at hin
        simp only at hin
        have h4 : i ∈ v := List.mem_of_mem_filter hin
        exact hname (e.1, v) h1 h4

/-- The removal loop of `remove_file` purges every processed node. -/
theorem foldl_removeNodeData_purges (indices : List Nat) (s : RepositoryGraph)
    (hkeys : (s.name_to_nodes.map (fun e => e.1)).Nodup)
    (hnodup : indices.Nodup)
    (hpend : ∀ j ∈ indices, ∀ ndj, mget s.nodes j = some ndj →
      (∀ e ∈ s.id_to_node, e.2 = j → e.1 = ndj.id) ∧
      (∀ e ∈ s.name_to_nodes, j ∈ e.2 → e.1 = ndj.name)) :
    ∀ i ∈ indices, ∀ nd, mget s.nodes i = some nd →
      NodePurged (indices.foldl removeNodeData s) i nd.id := by
  induction indices generalizing s with
  | nil =>
    intro i hi
    cases hi
  | cons a rest ih =>
    intro i hi nd hnode
    rw [List.foldl_cons]
    rcases List.mem_cons.mp hi with rfl | hmem
    · have hp := hpend i (List.mem_cons_self _ _) nd hnode
      exact nodePurged_foldl rest _ (removeNodeData_purges_self hnode hp.1 hp.2 hkeys)
    · have hia : i ≠ a := by
        rintro rfl
        exact (List.nodup_cons.mp hnodup).1 hmem
      apply ih (removeNodeData s a)
      · rw [removeNodeData_name_keys]
        exact hkeys
      · exact (List.nodup_cons.mp hnodup).2
      · intro j hj ndj hndj
        have hja : j ≠ a := by
          rintro rfl
          exact (List.nodup_cons.mp hnodup).1 hj
        have hj0 : mget s.nodes j = some ndj := by
          rw [← mget_nodes_removeNodeData a j hja]
          exact hndj
        have hp := hpend j (List.mem_cons_of_mem _ hj) ndj hj0
        have h2 := pending_removeNodeData hja hj0 hp.1 hp.2
        exact ⟨h2.2.1, h2.2.2⟩
      · exact hmem
      · rw [mget_nodes_removeNodeData a i hia]
        exact hnode

/-- `remove_file(p)` leaves no secondary-index reference to any node that was
listed under `file_to_nodes[p]`. -/
theorem removeFile_nodePurged (g : RepositoryGraph) (p : String) (hwf : GraphWF g)
    (indices : List Nat) (hf : mget g.file_to_nodes p = some indices) :
    ∀ i ∈ indices, ∀ nd, mget g.nodes i = some nd →
      NodePurged (removeFile g p) i nd.id := by
  intro i hi nd hnode
  have hfe := mget_some_mem hf
  have hkeys : ((({ g with file_to_nodes := mdel g.file_to_nodes p }
      : RepositoryGraph).name_to_nodes).map (fun e => e.1)).Nodup :=
    hwf.name_keys_nodup
  have hnodup : indices.Nodup := hwf.file_vals_nodup _ hfe
  have hpend : ∀ j ∈ indices, ∀ ndj,
      mget ({ g with file_to_nodes := mdel g.file_to_nodes p }
        : RepositoryGraph).nodes j = some ndj →
      (∀ e ∈ ({ g with file_to_nodes := mdel g.file_to_nodes p }
        : RepositoryGraph).id_to_node, e.2 = j → e.1 = ndj.id) ∧
      (∀ e ∈ ({ g with file_to_nodes := mdel g.file_to_nodes p }
        : RepositoryGraph).name_to_nodes, j ∈ e.2 → e.1 = ndj.name) := by
    intro j hj ndj hndj
    constructor
    · intro e he h2
      rcases hwf.id_entries e he with ⟨nd', h3, h4⟩
      rw [h2] at h3
      rw [hndj] at h3
      rw [← h4, Option.some.inj h3]
    · intro e he h2
      rcases hwf.name_entries e he j h2 with ⟨nd', h3, h4⟩
      rw [hndj] at h3
      rw [← h4, Option.some.inj h3]
  have hmain := foldl_removeNodeData_purges indices
    { g with file_to_nodes := mdel g.file_to_nodes p } hkeys hnodup hpend i hi nd hnode
  have hrf : removeFile g p =
      { (indices.foldl removeNodeData
          { g with file_to_nodes := mdel g.file_to_nodes p }) with
        file_imports := mdel (indices.foldl removeNodeData
          { g with file_to_nodes := mdel g.file_to_nodes p }).file_imports p } := by
    unfold removeFile
    rw [hf]
  rw [hrf]
  exact ⟨fun e he => hmain.1 e he, fun e he => hmain.2.1 e he,
    fun e he => hmain.2.2 e he⟩

/-! ## Claim C4 -/

/-- C4: after `remove_file(p)` the key `p` is absent from `file_to_nodes`,
and for every node index that was listed under `file_to_nodes[p]`, no entry
of `id_to_node` or `element_arena` and no `name_to_nodes` vector still
references that node or its element id. -/
theorem graph_remove_file_purges (g : RepositoryGraph) (p : String) (hwf : GraphWF g) :
    mget (removeFile g p).file_to_nodes p = none ∧
    (∀ indices, mget g.file_to_nodes p = some indices →
      ∀ i ∈ indices, ∀ nd, mget g.nodes i = some nd →
        (∀ e ∈ (removeFile g p).id_to_node, e.1 ≠ nd.id ∧ e.2 ≠ i) ∧
        (∀ e ∈ (removeFile g p).element_arena, e.1 ≠ nd.id) ∧
        (∀ e ∈ (removeFile g p).name_to_nodes, i ∉ e.2)) := by
  constructor
  · unfold removeFile
    cases hf : mget g.file_to_nodes p with
    | none => simpa using hf
    | some indices =>
      simp only
      rw [foldl_removeNodeData_file_to_nodes]
      exact mget_mdel_self _ _
  · intro indices hf i hi nd hnode
    exact removeFile_nodePurged g p hwf indices hf i hi nd hnode

theorem graphFixtureA_wf : GraphWF graphFixtureA := by
  constructor
  · intro e he
    fin_cases he
    · exact ⟨nodeFixA, by decide, by decide⟩
    · exact ⟨nodeFixB, by decide, by decide⟩
  · intro e he i hi
    fin_cases he
    fin_cases hi
    · exact ⟨nodeFixA, by decide, by decide⟩
    · exact ⟨nodeFixB, by decide, by decide⟩
  · decide
  · intro e he i hi
    fin_cases he
    · fin_cases hi
      exact ⟨nodeFixA, by decide, by decide⟩
    · fin_cases hi
      exact ⟨nodeFixB, by decide, by decide⟩
  · intro e he
    fin_cases he <;> decide
  · intro e he
    fin_cases he <;> decide
  · intro e he e' he'
    fin_cases he <;> fin_cases he' <;> decide

theorem graph_remove_file_purges_witness :
    mget (removeFile graphFixtureA "a.py").file_to_nodes "a.py" = none ∧
    mget graphFixtureA.file_to_nodes "a.py" = some [0] ∧
    0 ∈ [0] ∧
    mget graphFixtureA.nodes 0 = some nodeFixA ∧
    ("f_b", 1) ∈ (removeFile graphFixtureA "a.py").id_to_node ∧
    ("f_b" ≠ nodeFixA.id ∧ 1 ≠ 0) := by
  have h := graph_remove_file_purges graphFixtureA "a.py" graphFixtureA_wf
  have hmem : ("f_b", 1) ∈ (removeFile graphFixtureA "a.py").id_to_node := by decide
  refine ⟨h.1, by decide, by decide, by decide, hmem, ?_⟩
  exact (h.2 [0] (by decide) 0 (by decide) nodeFixA (by decide)).1 _ hmem

/-! ## Module paths, graph build and incremental update (graph/mod.rs,
global_index/mod.rs, utils/mod.rs) -/

/-- Split a character list at a separator, keeping empty pieces. -/
def splitOnChar (sep : Char) : List Char → List (List Char)
  | [] => [[]]
  | c :: rest =>
    let r := splitOnChar sep rest
    if c = sep then [] :: r
    else
      match r with
      | h :: t => (c :: h) :: t
      | [] => [[c]]

/-- Path components with a leading root marker (`std::path::Path::components`
for unix-style paths). -/
def pathComps (p : String) : List String :=
  let comps := ((splitOnChar '/' p.toList).map (fun cs => (⟨cs⟩ : String))).filter
    (fun c => decide (c ≠ ""))
  if p.toList.head? = some '/' then "/" :: comps else comps

/-- `Path::strip_prefix`: component-wise prefix removal. -/
def stripPathRoot (path root : String) : Option (List String) :=
  let pc := pathComps path
  let rc := pathComps root
  if rc.isPrefixOf pc then some (pc.drop rc.length) else none

/-- `str::strip_suffix`. -/
def stripSfx (s sfx : String) : Option String :=
  if sfx.toList.isSuffixOf s.toList then
    some ⟨s.toList.take (s.toList.length - sfx.toList.length)⟩
  else none

/-- `str::replace(['/', '\\'], ".")`. -/
def replaceSeps (s : String) : String :=
  ⟨s.toList.map (fun c => if c = '/' ∨ c = '\\' then '.' else c)⟩

/-- `utils::file_path_to_module_path`: strip the repo root and a recognized
source extension, turn separators into dots, strip a trailing `.__init__`. -/
def filePathToModulePath (file_path repo_root : String) : Option String :=
  match stripPathRoot file_path repo_root with
  | none => none
  | some comps =>
    let relative_str := String.intercalate "/" comps
    let without_ext := (stripSfx relative_str ".py" <|> stripSfx relative_str ".ts" <|>
      stripSfx relative_str ".js" <|> stripSfx relative_str ".rs" <|>
      stripSfx relative_str ".go" <|> stripSfx relative_str ".java").getD relative_str
    let module_path := replaceSeps without_ext
    let module_path := (stripSfx module_path ".__init__").getD module_path
    if module_path = "" then none else some module_path

/-- `GlobalIndex::build`. -/
def giBuild (gi : GlobalIndex) (elements : List CodeElement) (repo_root : String) :
    GlobalIndex :=
  elements.foldl (fun acc elem =>
    if elem.element_type = ElementType.File then
      match filePathToModulePath elem.file_path repo_root with
      | some module_path =>
        { acc with
          file_map := mput acc.file_map elem.file_path module_path
          module_map := mput acc.module_map module_path elem.file_path }
      | none => acc
    else
      { acc with
        export_map := mpush acc.export_map elem.name (elem.file_path, elem.id) }) gi

inductive CallType
  | Simple | Attribute
deriving DecidableEq

/-- `parser::calls::CallInfo`. -/
structure CallInfo where
  call_name : String
  base_object : Option String
  call_type : CallType
  scope_id : Option String
  start_byte : Nat
  end_byte : Nat
  start_line : Nat
  end_line : Nat
  node_text : String
deriving DecidableEq

/-- Outcome of `SupportedLanguage::from_extension` plus tree-sitter parsing
plus extraction for one file.  The extractors run external grammar code, so
edge construction is parametrized by their results; `none` models an
unrecognized extension or a parse failure (the `continue` branches). -/
structure ParseOracle where
  parse_imports : String → String → Option (List ImportInfo)
  parse_calls : String → String → Option (List CallInfo)
  parse_bases : String → String → Option (List String)

/-- `self.graph.add_edge`. -/
def addEdgeG (g : RepositoryGraph) (a b : Nat) (k : EdgeKind) : RepositoryGraph :=
  { g with edges := g.edges ++ [(a, b, k)] }

/-- The text after the last `'.'` (`rsplit('.').next()`, total). -/
def afterLastDot (m : String) : String :=
  ⟨(m.toList.reverse.takeWhile (fun c => c != '.')).reverse⟩

/-- The file-path scan at the end of
`RepositoryGraph::resolve_import_target_heuristic` (DashMap iteration is
modelled as insertion order). -/
def resolveImportHeuristicPath (g : RepositoryGraph) (imp : ImportInfo) : Option Nat :=
  let normalized := (imp.module.replace "." "/").replace "::" "/"
  g.file_to_nodes.findSome? (fun entry =>
    if strContains entry.1 normalized then
      entry.2.find? (fun idx =>
        match getNode g idx with
        | some n => n.kind == NodeKind.File
        | none => false)
    else none)

/-- The last-segment step of `resolve_import_target_heuristic`. -/
def resolveImportHeuristicSeg (g : RepositoryGraph) (imp : ImportInfo) : Option Nat :=
  let seg := afterLastDot imp.module
  if seg ≠ imp.module then
    match mget g.name_to_nodes seg with
    | some target_indices =>
      match target_indices.head? with
      | some idx => some idx
      | none => resolveImportHeuristicPath g imp
    | none => resolveImportHeuristicPath g imp
  else resolveImportHeuristicPath g imp

/-- `RepositoryGraph::resolve_import_target_heuristic`. -/
def resolveImportTargetHeuristic (g : RepositoryGraph) (imp : ImportInfo) : Option Nat :=
  match mget g.name_to_nodes imp.module with
  | some target_indices =>
    match target_indices.head? with
    | some idx => some idx
    | none => resolveImportHeuristicSeg g imp
  | none => resolveImportHeuristicSeg g imp

/-- The named-import linking loop inside `build_import_edges`. -/
def addNamedImportEdges (g : RepositoryGraph) (file_idx : Nat) (names : List String) :
    RepositoryGraph :=
  names.foldl (fun g name =>
    if name = "*" then g
    else
      let resolved := resolveSymbol g.global_index name
      let linked :=
        if resolved.isEmpty then none
        else
          match resolved.head? with
          | some r0 => mget g.id_to_node r0.2
          | none => none
      let target :=
        match linked with
        | some t => some t
        | none =>
          match mget g.name_to_nodes name with
          | some indices => indices.head?
          | none => none
      match target with
      | some t => addEdgeG g file_idx t EdgeKind.Imports
      | none => g) g

/-- The per-import body of `build_import_edges`. -/
def addImportEdgesFor (g : RepositoryGraph) (file_idx : Nat) (file_path : String)
    (imp : ImportInfo) : RepositoryGraph :=
  let resolved_via_index :=
    match resolveImport g.global_index imp file_path with
    | some fp =>
      match mget g.file_to_nodes fp with
      | some nodes =>
        nodes.find? (fun idx =>
          match getNode g idx with
          | some n => n.kind == NodeKind.File
          | none => false)
      | none => none
    | none => none
  let target_idx :=
    match resolved_via_index with
    | some t => some t
    | none => resolveImportTargetHeuristic g imp
  let g :=
    match target_idx with
    | some t => addEdgeG g file_idx t EdgeKind.Imports
    | none => g
  addNamedImportEdges g file_idx imp.names

/-- `RepositoryGraph::build_import_edges`. -/
def buildImportEdges (po : ParseOracle) (g : RepositoryGraph)
    (elements : List CodeElement) : RepositoryGraph :=
  elements.foldl (fun g elem =>
    if elem.element_type ≠ ElementType.File then g
    else
      match po.parse_imports elem.file_path elem.code with
      | none => g
      | some imports =>
        match mget g.id_to_node elem.id with
        | none => g
        | some file_idx =>
          let imported_names := imports.foldl
            (fun acc imp => (acc ++ [imp.module]) ++ imp.names) []
          let g := { g with
            file_imports := mput g.file_imports elem.file_path imported_names }
          imports.foldl (fun g imp => addImportEdgesFor g file_idx elem.file_path imp) g) g

/-- `RepositoryGraph::build_call_edges`. -/
def buildCallEdges (po : ParseOracle) (g : RepositoryGraph)
    (elements : List CodeElement) : RepositoryGraph :=
  elements.foldl (fun g elem =>
    if elem.element_type ≠ ElementType.Function ∧ elem.element_type ≠ ElementType.Method then
      g
    else
      match po.parse_calls elem.file_path elem.code with
      | none => g
      | some calls =>
        match mget g.id_to_node elem.id with
        | none => g
        | some caller_idx =>
          let imported_names := (mget g.file_imports elem.file_path).getD []
          calls.foldl (fun g call =>
            match mget g.name_to_nodes call.call_name with
            | none => g
            | some callee_indices =>
              match resolveCallTarget g call.call_name callee_indices elem.file_path
                  imported_names with
              | some callee_idx =>
                if callee_idx ≠ caller_idx then
                  addEdgeG g caller_idx callee_idx EdgeKind.Calls
                else g
              | none => g) g) g

/-- `RepositoryGraph::build_inheritance_edges`. -/
def buildInheritanceEdges (po : ParseOracle) (g : RepositoryGraph)
    (elements : List CodeElement) : RepositoryGraph :=
  elements.foldl (fun g elem =>
    if elem.element_type ≠ ElementType.Class ∧ elem.element_type ≠ ElementType.Struct ∧
        elem.element_type ≠ ElementType.Interface then
      g
    else
      match po.parse_bases elem.file_path elem.code with
      | none => g
      | some base_names =>
        match mget g.id_to_node elem.id with
        | none => g
        | some class_idx =>
          base_names.foldl (fun g base_name =>
            match mget g.name_to_nodes base_name with
            | some base_indices =>
              match base_indices.head? with
              | some base_idx => addEdgeG g class_idx base_idx EdgeKind.Inherits
              | none => g
            | none => g) g) g

/-- The `GraphNode` built from a `CodeElement` in Phase 1 / update Phase 2. -/
def graphNodeOfElement (elem : CodeElement) : GraphNode :=
  { id := elem.id, kind := nodeKindOfElementType elem.element_type, name := elem.name
    file_path := elem.file_path, start_line := elem.start_line, end_line := elem.end_line }

/-- Node-addition phase: `add_node` plus the `element_arena` insert. -/
def addElementNodes (g : RepositoryGraph) (elements : List CodeElement) :
    RepositoryGraph :=
  elements.foldl (fun g elem =>
    let g' := (addNode g (graphNodeOfElement elem)).1
    { g' with element_arena := mput g'.element_arena elem.id elem }) g

/-- The `defines`-edges phase (build Phase 2 / update Phase 5). -/
def addDefinesEdges (g : RepositoryGraph) (elements : List CodeElement) :
    RepositoryGraph :=
  elements.foldl (fun g elem =>
    if elem.element_type = ElementType.File then g
    else
      match mget g.file_to_nodes elem.file_path with
      | none => g
      | some file_nodes =>
        let file_idx := file_nodes.find? (fun idx =>
          match getNode g idx with
          | some n => n.kind == NodeKind.File
          | none => false)
        match file_idx, mget g.id_to_node elem.id with
        | some fi, some ei => addEdgeG g fi ei EdgeKind.Defines
        | _, _ => g) g

/-- `RepositoryGraph::build_from_elements`. -/
def buildFromElements (po : ParseOracle) (g : RepositoryGraph)
    (elements : List CodeElement) (repo_root : String) : RepositoryGraph :=
  let g := addElementNodes g elements
  let g := { g with global_index := giBuild g.global_index elements repo_root }
  let g := addDefinesEdges g elements
  let g := buildImportEdges po g elements
  let g := buildCallEdges po g elements
  buildInheritanceEdges po g elements

/-- `RepositoryGraph::update_file`. -/
def updateFile (po : ParseOracle) (g : RepositoryGraph) (file_path : String)
    (new_elements : List CodeElement) (repo_root : String) : RepositoryGraph :=
  let g := removeFile g file_path
  let g := { g with global_index := giRemoveFile g.global_index file_path }
  let g := addElementNodes g new_elements
  let g := { g with global_index := giBuild g.global_index new_elements repo_root }
  let g := buildImportEdges po g new_elements
  let g := buildCallEdges po g new_elements
  let g := buildInheritanceEdges po g new_elements
  addDefinesEdges g new_elements

/-- `RepositoryGraph::get_source`. -/
def getSource (g : RepositoryGraph) (element_id : String) : Option String :=
  (mget g.element_arena element_id).map (fun e => e.code)

structure GraphStats where
  node_count : Nat
  edge_count : Nat
  file_count : Nat
  element_count : Nat
deriving DecidableEq

/-- `RepositoryGraph::stats`. -/
def graphStats (g : RepositoryGraph) : GraphStats :=
  { node_count := g.nodes.length, edge_count := g.edges.length
    file_count := g.file_to_nodes.length, element_count := g.element_arena.length }

/-! ### Frame lemmas for claim C8 -/

theorem mget_mpush_ne {κ α : Type} [DecidableEq κ] (m : List (κ × List α)) (k k' : κ)
    (v : α) (h : k' ≠ k) : mget (mpush m k v) k' = mget m k' := by
  have h2 : ¬ k = k' := fun hh => h hh.symm
  induction m with
  | nil => simp [mpush, mget, h2]
  | cons e rest ih =>
    by_cases he : e.1 = k
    · have h3 : ¬ e.1 = k' := by rw [he]; exact h2
      simp [mpush, he, mget, h3, h2]
    · by_cases he' : e.1 = k'
      · simp [mpush, he, mget, he', h, h2]
      · simp [mpush, he, mget, he', ih]

theorem mget_append_left {κ α : Type} [DecidableEq κ] {m : List (κ × α)} {k : κ} {v : α}
    (rest : List (κ × α)) (h : mget m k = some v) : mget (m ++ rest) k = some v := by
  induction m with
  | nil => cases h
  | cons e t ih =>
    by_cases he : e.1 = k
    · rw [mget, if_pos he] at h
      rw [List.cons_append, mget, if_pos he]
      exact h
    · rw [mget, if_neg he] at h
      rw [List.cons_append, mget, if_neg he]
      exact ih h

theorem mget_none_of_all_ne {κ α : Type} [DecidableEq κ] {m : List (κ × α)} {k : κ}
    (h : ∀ e ∈ m, e.1 ≠ k) : mget m k = none := by
  induction m with
  | nil => rfl
  | cons e t ih =>
    rw [mget, if_neg (h e (List.mem_cons_self _ _))]
    exact ih (fun e' he' => h e' (List.mem_cons_of_mem _ he'))

theorem mget_mdel_some {κ α : Type} [DecidableEq κ] {m : List (κ × α)} {k k' : κ} {v : α}
    (h : mget (mdel m k) k' = some v) : mget m k' = some v := by
  by_cases hk : k' = k
  · rw [hk, mget_mdel_self] at h
    cases h
  · rw [mget_mdel_ne m k k' hk] at h
    exact h

theorem mget_nodes_removeNodeData_some {s : RepositoryGraph} {a j : Nat} {nd : GraphNode}
    (h : mget (removeNodeData s a).nodes j = some nd) : mget s.nodes j = some nd := by
  cases ha : mget s.nodes a with
  | none =>
    simp only [removeNodeData, ha] at h
    exact h
  | some node =>
    simp only [removeNodeData, ha] at h
    exact mget_mdel_some h

theorem foldl_removeNodeData_nodes_not_mem (l : List Nat) (s : RepositoryGraph) (i : Nat)
    (h : i ∉ l) : mget (l.foldl removeNodeData s).nodes i = mget s.nodes i := by
  induction l generalizing s with
  | nil => rfl
  | cons a t ih =>
    have hia : i ≠ a := fun hh => h (hh ▸ List.mem_cons_self a t)
    rw [List.foldl_cons, ih _ (fun hm => h (List.mem_cons_of_mem _ hm)),
      mget_nodes_removeNodeData a i hia]

theorem foldl_removeNodeData_arena_ne (l : List Nat) (s : RepositoryGraph) (k : String)
    (hk : ∀ a ∈ l, ∀ nda, mget s.nodes a = some nda → nda.id ≠ k) :
    mget (l.foldl removeNodeData s).element_arena k = mget s.element_arena k := by
  induction l generalizing s with
  | nil => rfl
  | cons a t ih =>
    rw [List.foldl_cons]
    have hstep : mget (removeNodeData s a).element_arena k = mget s.element_arena k := by
      cases ha : mget s.nodes a with
      | none => simp only [removeNodeData, ha]
      | some nda =>
        simp only [removeNodeData, ha]
        exact mget_mdel_ne _ _ _ (Ne.symm (hk a (List.mem_cons_self _ _) nda ha))
    have hk' : ∀ a' ∈ t, ∀ nda', mget (removeNodeData s a).nodes a' = some nda' →
        nda'.id ≠ k := by
      intro a' ha' nda' hnda'
      exact hk a' (List.mem_cons_of_mem _ ha') nda' (mget_nodes_removeNodeData_some hnda')
    rw [ih _ hk', hstep]

theorem removeFile_ftn_ne (g : RepositoryGraph) (p q : String) (h : q ≠ p) :
    mget (removeFile g p).file_to_nodes q = mget g.file_to_nodes q := by
  unfold removeFile
  cases hf : mget g.file_to_nodes p with
  | none => rfl
  | some indices =>
    show mget (indices.foldl removeNodeData _).file_to_nodes q = _
    rw [foldl_removeNodeData_file_to_nodes]
    exact mget_mdel_ne _ _ _ h

/-- States related by edge construction only: nodes, arena and the file index
are untouched. -/
def EdgeOnly (g g' : RepositoryGraph) : Prop :=
  g'.nodes = g.nodes ∧ g'.element_arena = g.element_arena ∧
    g'.file_to_nodes = g.file_to_nodes

theorem edgeOnly_refl (g : RepositoryGraph) : EdgeOnly g g := ⟨rfl, rfl, rfl⟩

theorem edgeOnly_trans {a b c : RepositoryGraph} (h1 : EdgeOnly a b) (h2 : EdgeOnly b c) :
    EdgeOnly a c :=
  ⟨h2.1.trans h1.1, h2.2.1.trans h1.2.1, h2.2.2.trans h1.2.2⟩

theorem edgeOnly_foldl {β : Type} {f : RepositoryGraph → β → RepositoryGraph}
    (h : ∀ g x, EdgeOnly g (f g x)) : ∀ (l : List β) (g), EdgeOnly g (l.foldl f g) := by
  intro l
  induction l with
  | nil => intro g; exact edgeOnly_refl g
  | cons a t ih =>
    intro g
    exact edgeOnly_trans (h g a) (ih (f g a))

theorem edgeOnly_addEdgeG (g : RepositoryGraph) (a b : Nat) (k : EdgeKind) :
    EdgeOnly g (addEdgeG g a b k) := ⟨rfl, rfl, rfl⟩

theorem edgeOnly_addNamedImportEdges (g : RepositoryGraph) (fi : Nat)
    (names : List String) : EdgeOnly g (addNamedImportEdges g fi names) := by
  apply edgeOnly_foldl
  intro g name
  dsimp only
  split
  · exact edgeOnly_refl g
  · split
    · exact edgeOnly_addEdgeG _ _ _ _
    · exact edgeOnly_refl g

theorem edgeOnly_addImportEdgesFor (g : RepositoryGraph) (fi : Nat) (fp : String)
    (imp : ImportInfo) : EdgeOnly g (addImportEdgesFor g fi fp imp) := by
  unfold addImportEdgesFor
  dsimp only
  split
  · exact edgeOnly_trans (edgeOnly_addEdgeG _ _ _ _) (edgeOnly_addNamedImportEdges _ _ _)
  · exact edgeOnly_addNamedImportEdges _ _ _

theorem edgeOnly_buildImportEdges (po : ParseOracle) (g : RepositoryGraph)
    (els : List CodeElement) : EdgeOnly g (buildImportEdges po g els) := by
  apply edgeOnly_foldl
  intro g elem
  dsimp only
  split
  · exact edgeOnly_refl g
  · split
    · exact edgeOnly_refl g
    · split
      · exact edgeOnly_refl g
      · exact edgeOnly_trans ⟨rfl, rfl, rfl⟩
          (edgeOnly_foldl (fun g' imp => edgeOnly_addImportEdgesFor g' _ elem.file_path imp)
            _ _)

theorem edgeOnly_buildCallEdges (po : ParseOracle) (g : RepositoryGraph)
    (els : List CodeElement) : EdgeOnly g (buildCallEdges po g els) := by
  apply edgeOnly_foldl
  intro g elem
  dsimp only
  split
  · exact edgeOnly_refl g
  · split
    · exact edgeOnly_refl g
    · split
      · exact edgeOnly_refl g
      · apply edgeOnly_foldl
        intro g call
        dsimp only
        split
        · exact edgeOnly_refl g
        · split
          · split
            · exact edgeOnly_addEdgeG _ _ _ _
            · exact edgeOnly_refl g
          · exact edgeOnly_refl g

theorem edgeOnly_buildInheritanceEdges (po : ParseOracle) (g : RepositoryGraph)
    (els : List CodeElement) : EdgeOnly g (buildInheritanceEdges po g els) := by
  apply edgeOnly_foldl
  intro g elem
  dsimp only
  split
  · exact edgeOnly_refl g
  · split
    · exact edgeOnly_refl g
    · split
      · exact edgeOnly_refl g
      · apply edgeOnly_foldl
        intro g base_name
        dsimp only
        split
        · split
          · exact edgeOnly_addEdgeG _ _ _ _
          · exact edgeOnly_refl g
        · exact edgeOnly_refl g

theorem edgeOnly_addDefinesEdges (g : RepositoryGraph) (els : List CodeElement) :
    EdgeOnly g (addDefinesEdges g els) := by
  apply edgeOnly_foldl
  intro g elem
  dsimp only
  split
  · exact edgeOnly_refl g
  · split
    · exact edgeOnly_refl g
    · split
      · exact edgeOnly_addEdgeG _ _ _ _
      · exact edgeOnly_refl g

theorem addElementNodes_nodes_append (g : RepositoryGraph) (els : List CodeElement) :
    ∃ rest, (addElementNodes g els).nodes = g.nodes ++ rest := by
  induction els generalizing g with
  | nil => exact ⟨[], (List.append_nil _).symm⟩
  | cons e t ih =>
    have h1 : addElementNodes g (e :: t) =
        addElementNodes { (addNode g (graphNodeOfElement e)).1 with
          element_arena :=
            mput ((addNode g (graphNodeOfElement e)).1).element_arena e.id e } t := rfl
    rw [h1]
    rcases ih { (addNode g (graphNodeOfElement e)).1 with
      element_arena :=
        mput ((addNode g (graphNodeOfElement e)).1).element_arena e.id e } with ⟨rest, hrest⟩
    refine ⟨(g.next_index, graphNodeOfElement e) :: rest, ?_⟩
    rw [hrest]
    show (g.nodes ++ [(g.next_index, graphNodeOfElement e)]) ++ rest = _
    rw [List.append_assoc]
    rfl

theorem addElementNodes_ftn_ne (g : RepositoryGraph) (els : List CodeElement)
    (q : String) (h : ∀ e ∈ els, e.file_path ≠ q) :
    mget (addElementNodes g els).file_to_nodes q = mget g.file_to_nodes q := by
  induction els generalizing g with
  | nil => rfl
  | cons e t ih =>
    have h1 : addElementNodes g (e :: t) =
        addElementNodes { (addNode g (graphNodeOfElement e)).1 with
          element_arena :=
            mput ((addNode g (graphNodeOfElement e)).1).element_arena e.id e } t := rfl
    rw [h1, ih _ (fun e' he' => h e' (List.mem_cons_of_mem _ he'))]
    show mget (mpush g.file_to_nodes (graphNodeOfElement e).file_path g.next_index) q = _
    exact mget_mpush_ne _ _ _ _ (fun hh => h e (List.mem_cons_self _ _) hh.symm)

theorem addElementNodes_arena_ne (g : RepositoryGraph) (els : List CodeElement)
    (k : String) (h : ∀ e ∈ els, e.id ≠ k) :
    mget (addElementNodes g els).element_arena k = mget g.element_arena k := by
  induction els generalizing g with
  | nil => rfl
  | cons e t ih =>
    have h1 : addElementNodes g (e :: t) =
        addElementNodes { (addNode g (graphNodeOfElement e)).1 with
          element_arena :=
            mput ((addNode g (graphNodeOfElement e)).1).element_arena e.id e } t := rfl
    rw [h1, ih _ (fun e' he' => h e' (List.mem_cons_of_mem _ he'))]
    show mget (mput g.element_arena e.id e) k = _
    exact mget_mput_ne _ _ _ _ (fun hh => h e (List.mem_cons_self _ _) hh.symm)

theorem addElementNodes_arena_mem (g : RepositoryGraph) (els : List CodeElement)
    (hnodup : (els.map (fun e => e.id)).Nodup) :
    ∀ e ∈ els, mget (addElementNodes g els).element_arena e.id = some e := by
  induction els generalizing g with
  | nil =>
    intro e he
    cases he
  | cons e0 t ih =>
    rw [List.map_cons, List.nodup_cons] at hnodup
    intro e he
    have h1 : addElementNodes g (e0 :: t) =
        addElementNodes { (addNode g (graphNodeOfElement e0)).1 with
          element_arena :=
            mput ((addNode g (graphNodeOfElement e0)).1).element_arena e0.id e0 } t := rfl
    rw [h1]
    rcases List.mem_cons.mp he with rfl | hmem
    · rw [addElementNodes_arena_ne _ t _ ?hids]
      case hids =>
        intro e' he' hh
        exact hnodup.1 (hh ▸ List.mem_map.mpr ⟨e', he', rfl⟩)
      show mget (mput g.element_arena e.id e) e.id = some e
      exact mget_mput_self _ _ _
    · exact ih _ hnodup.2 e hmem

/-! ## Claim C8 -/

/-- Parse oracle for files that yield no imports, calls or base classes. -/
def poFixture : ParseOracle :=
  { parse_imports := fun _ _ => some []
    parse_calls := fun _ _ => some []
    parse_bases := fun _ _ => some [] }

def elemFileA : CodeElement :=
  { id := "file_a", element_type := ElementType.File, name := "a.py", file_path := "a.py"
    relative_path := "a.py", language := "python", start_line := 1, end_line := 2
    code := "def foo(): pass", signature := none, docstring := none, summary := none
    metadata := [] }

def elemFuncFoo : CodeElement :=
  { id := "func_foo", element_type := ElementType.Function, name := "foo"
    file_path := "a.py", relative_path := "a.py", language := "python"
    start_line := 1, end_line := 2, code := "def foo(): pass", signature := none
    docstring := none, summary := none, metadata := [] }

def elemFileB : CodeElement :=
  { id := "file_b", element_type := ElementType.File, name := "b.py", file_path := "b.py"
    relative_path := "b.py", language := "python", start_line := 1, end_line := 2
    code := "def bar(): pass", signature := none, docstring := none, summary := none
    metadata := [] }

def elemFuncBar : CodeElement :=
  { id := "func_bar", element_type := ElementType.Function, name := "bar"
    file_path := "b.py", relative_path := "b.py", language := "python"
    start_line := 1, end_line := 2, code := "def bar(): pass", signature := none
    docstring := none, summary := none, metadata := [] }

def elemFileA2 : CodeElement :=
  { id := "file_a_v2", element_type := ElementType.File, name := "a.py"
    file_path := "a.py", relative_path := "a.py", language := "python"
    start_line := 1, end_line := 2, code := "def baz(): pass", signature := none
    docstring := none, summary := none, metadata := [] }

def elemFuncBaz : CodeElement :=
  { id := "func_baz", element_type := ElementType.Function, name := "baz"
    file_path := "a.py", relative_path := "a.py", language := "python"
    start_line := 1, end_line := 2, code := "def baz(): pass", signature := none
    docstring := none, summary := none, metadata := [] }

/-- The spec's two-file scenario, built from scratch. -/
def scenarioBase : RepositoryGraph :=
  buildFromElements poFixture RepositoryGraph.new
    [elemFileA, elemFuncFoo, elemFileB, elemFuncBar] ""

/-- C8: `update_file(p, new_elements, root)` only touches data of file `p`:
for every other file the `file_to_nodes` entry, the nodes it lists and their
sources are unchanged; every old element id of `p` disappears from
`get_source` while every new element's source appears; and in the spec's
two-file scenario the node count afterwards is 4. -/
theorem update_file_frame (po : ParseOracle) (g : RepositoryGraph) (p : String)
    (newEls : List CodeElement) (root : String)
    (hwf : GraphWF g)
    (hfiles : ∀ e ∈ newEls, e.file_path = p)
    (hids : (newEls.map (fun e => e.id)).Nodup)
    (hfresh : ∀ e ∈ newEls, ∀ en ∈ g.nodes, e.id ≠ en.2.id) :
    ((∀ q, q ≠ p → mget (updateFile po g p newEls root).file_to_nodes q =
      mget g.file_to_nodes q) ∧
    (∀ q, q ≠ p → ∀ vs, mget g.file_to_nodes q = some vs → ∀ i ∈ vs,
      mget (updateFile po g p newEls root).nodes i = mget g.nodes i ∧
      (∀ nd, mget g.nodes i = some nd →
        getSource (updateFile po g p newEls root) nd.id = getSource g nd.id)) ∧
    (∀ indices, mget g.file_to_nodes p = some indices → ∀ i ∈ indices,
      ∀ nd, mget g.nodes i = some nd →
        getSource (updateFile po g p newEls root) nd.id = none) ∧
    (∀ e ∈ newEls, getSource (updateFile po g p newEls root) e.id = some e.code)) ∧
    (graphStats (updateFile poFixture scenarioBase "a.py"
      [elemFileA2, elemFuncBaz] "")).node_count = 4 := by
  have hEOnodes : (updateFile po g p newEls root).nodes =
      (addElementNodes
        { removeFile g p with
          global_index := giRemoveFile (removeFile g p).global_index p } newEls).nodes := by
    unfold updateFile
    dsimp only
    rw [(edgeOnly_addDefinesEdges _ _).1, (edgeOnly_buildInheritanceEdges _ _ _).1,
      (edgeOnly_buildCallEdges _ _ _).1, (edgeOnly_buildImportEdges _ _ _).1]
  have hEOarena : (updateFile po g p newEls root).element_arena =
      (addElementNodes
        { removeFile g p with
          global_index := giRemoveFile (removeFile g p).global_index p }
        newEls).element_arena := by
    unfold updateFile
    dsimp only
    rw [(edgeOnly_addDefinesEdges _ _).2.1, (edgeOnly_buildInheritanceEdges _ _ _).2.1,
      (edgeOnly_buildCallEdges _ _ _).2.1, (edgeOnly_buildImportEdges _ _ _).2.1]
  have hEOftn : (updateFile po g p newEls root).file_to_nodes =
      (addElementNodes
        { removeFile g p with
          global_index := giRemoveFile (removeFile g p).global_index p }
        newEls).file_to_nodes := by
    unfold updateFile
    dsimp only
    rw [(edgeOnly_addDefinesEdges _ _).2.2, (edgeOnly_buildInheritanceEdges _ _ _).2.2,
      (edgeOnly_buildCallEdges _ _ _).2.2, (edgeOnly_buildImportEdges _ _ _).2.2]
  have hRFnodes : ∀ i : Nat,
      (∀ indices, mget g.file_to_nodes p = some indices → i ∉ indices) →
      mget (removeFile g p).nodes i = mget g.nodes i := by
    intro i hnotp
    unfold removeFile
    cases hf : mget g.file_to_nodes p with
    | none => rfl
    | some indices =>
      show mget (indices.foldl removeNodeData _).nodes i = _
      exact foldl_removeNodeData_nodes_not_mem _ _ _ (hnotp indices hf)
  have hRFarena : ∀ k : String,
      (∀ indices, mget g.file_to_nodes p = some indices →
        ∀ a ∈ indices, ∀ nda, mget g.nodes a = some nda → nda.id ≠ k) →
      mget (removeFile g p).element_arena k = mget g.element_arena k := by
    intro k hk
    unfold removeFile
    cases hf : mget g.file_to_nodes p with
    | none => rfl
    | some indices =>
      show mget (indices.foldl removeNodeData _).element_arena k = _
      exact foldl_removeNodeData_arena_ne _ _ _ (hk indices hf)
  refine ⟨⟨?_, ?_, ?_, ?_⟩, ?_⟩
  · -- other files keep their file_to_nodes entry
    intro q hq
    rw [hEOftn]
    rw [addElementNodes_ftn_ne _ _ _ (fun e he => by rw [hfiles e he]; exact fun hh => hq hh.symm)]
    show mget (removeFile g p).file_to_nodes q = _
    exact removeFile_ftn_ne g p q hq
  · -- other files keep their nodes and sources
    intro q hq vs hvs i hi
    have hq_entry := mget_some_mem hvs
    rcases hwf.file_entries (q, vs) hq_entry i hi with ⟨nd, hnd, hndq'⟩
    have hndq : nd.file_path = q := hndq'
    have hnotin : ∀ indices, mget g.file_to_nodes p = some indices → i ∉ indices := by
      intro indices hf hiin
      have hp_entry := mget_some_mem hf
      rcases hwf.file_entries (p, indices) hp_entry i hiin with ⟨nd', hnd', hnd'p'⟩
      have hnd'p : nd'.file_path = p := hnd'p'
      have h9 : nd = nd' := by
        rw [hnd] at hnd'
        exact Option.some.inj hnd'
      apply hq
      rw [← hndq, h9]
      exact hnd'p
    have h1 : mget (removeFile g p).nodes i = mget g.nodes i := hRFnodes i hnotin
    rcases addElementNodes_nodes_append
      { removeFile g p with
        global_index := giRemoveFile (removeFile g p).global_index p } newEls with
      ⟨rest, hrest⟩
    have h2 : mget (addElementNodes
        { removeFile g p with
          global_index := giRemoveFile (removeFile g p).global_index p } newEls).nodes i
        = some nd := by
      rw [hrest]
      refine mget_append_left _ ?_
      show mget (removeFile g p).nodes i = some nd
      rw [h1, hnd]
    constructor
    · rw [hEOnodes, h2, hnd]
    · intro nd' hnd'
      have hnd'_mem := mget_some_mem hnd'
      have harena : mget (updateFile po g p newEls root).element_arena nd'.id =
          mget g.element_arena nd'.id := by
        rw [hEOarena]
        rw [addElementNodes_arena_ne _ _ _ (fun e he => hfresh e he (i, nd') hnd'_mem)]
        show mget (removeFile g p).element_arena nd'.id = _
        refine hRFarena nd'.id ?_
        intro indices hf a ha nda hnda hcontra
        have ha_eq : a = i :=
          hwf.node_ids_inj (a, nda) (mget_some_mem hnda) (i, nd') hnd'_mem hcontra
        have hp_entry := mget_some_mem hf
        rcases hwf.file_entries (p, indices) hp_entry a ha with ⟨nd'', hnd'', hnd''p'⟩
        have hnd''p : nd''.file_path = p := hnd''p'
        have h6 : nd'' = nd' := by
          rw [ha_eq, hnd'] at hnd''
          exact (Option.some.inj hnd'').symm
        have h7 : nd' = nd := by
          rw [hnd] at hnd'
          exact (Option.some.inj hnd').symm
        -- nd' is q's node yet also sits in file p: contradiction with q ≠ p
        apply hq
        rw [← hndq, ← h7, ← h6]
        exact hnd''p
      unfold getSource
      rw [harena]
  · -- old element ids of p are gone from get_source
    intro indices hf i hi nd hnd
    have hpurged := removeFile_nodePurged g p hwf indices hf i hi nd hnd
    have h0 : mget (removeFile g p).element_arena nd.id = none :=
      mget_none_of_all_ne (fun e he => hpurged.2.1 e he)
    have h1 : mget (updateFile po g p newEls root).element_arena nd.id = none := by
      rw [hEOarena]
      rw [addElementNodes_arena_ne _ _ _
        (fun e he => hfresh e he (i, nd) (mget_some_mem hnd))]
      exact h0
    unfold getSource
    rw [h1]
    rfl
  · -- new elements are present in get_source
    intro e he
    unfold getSource
    rw [hEOarena]
    rw [addElementNodes_arena_mem _ _ hids e he]
    rfl
  · -- the spec's concrete two-file scenario
    decide

def elemNewA : CodeElement :=
  { id := "f_new", element_type := ElementType.Function, name := "newf"
    file_path := "a.py", relative_path := "a.py", language := "python"
    start_line := 1, end_line := 2, code := "def newf(): pass", signature := none
    docstring := none, summary := none, metadata := [] }

theorem update_file_frame_witness :
    elemNewA.file_path = "a.py" ∧
    ([elemNewA].map (fun e => e.id)).Nodup ∧
    mget (updateFile poFixture graphFixtureA "a.py" [elemNewA] "").file_to_nodes "b.py" =
      mget graphFixtureA.file_to_nodes "b.py" ∧
    getSource (updateFile poFixture graphFixtureA "a.py" [elemNewA] "") "f_a" = none ∧
    getSource (updateFile poFixture graphFixtureA "a.py" [elemNewA] "") "f_new" =
      some elemNewA.code := by
  have h := update_file_frame poFixture graphFixtureA "a.py" [elemNewA] ""
    graphFixtureA_wf (by decide) (by decide) (by decide)
  refine ⟨rfl, by decide, h.1.1 "b.py" (by decide), ?_, ?_⟩
  · exact h.1.2.2.1 [0] (by decide) 0 (by decide) nodeFixA (by decide)
  · exact h.1.2.2.2 elemNewA (by decide)


/-! ## find_path (graph/queries.rs) and claim C3

`petgraph::algo::astar` with the zero heuristic is Dijkstra: it returns a
path of minimal total edge cost, where the `edge_cost` closure charges 1 for
edges of the filtered kind and `usize::MAX / 2` for every other edge.  The
library call is embedded as a minimum-cost search over the finitely many
cycle-free node paths (with positive weights a cost-minimal path is always
cycle-free, so this captures the library's contract); the surrounding
candidate loops mirror `find_path` exactly. -/

def usizeMaxHalf : Nat := (2 ^ 64 - 1) / 2

/-- The `edge_cost` closure of `find_path`. -/
def edgeWeight (edge_filter : Option EdgeKind) (k : EdgeKind) : Nat :=
  match edge_filter with
  | some filter => if k = filter then 1 else usizeMaxHalf
  | none => 1

/-- Kinds of the parallel edges from `u` to `v`. -/
def stepEdges (g : RepositoryGraph) (u v : Nat) : List EdgeKind :=
  g.edges.filterMap (fun e => if e.1 = u ∧ e.2.1 = v then some e.2.2 else none)

/-- Cost of the cheapest parallel edge from `u` to `v` (0 when there is no
edge; such hops never occur on chains). -/
def stepCostN (g : RepositoryGraph) (filt : Option EdgeKind) (u v : Nat) : Nat :=
  match (stepEdges g u v).map (edgeWeight filt) with
  | [] => 0
  | c :: cs => cs.foldl min c

def pathCostN (g : RepositoryGraph) (filt : Option EdgeKind) : List Nat → Nat
  | u :: v :: rest => stepCostN g filt u v + pathCostN g filt (v :: rest)
  | _ => 0

/-- Consecutive pairs of a node path. -/
def pairsOf (l : List Nat) : List (Nat × Nat) := l.zip l.tail

/-- The node path is connected by edges. -/
def chainB (g : RepositoryGraph) : List Nat → Bool
  | u :: v :: rest => !(stepEdges g u v).isEmpty && chainB g (v :: rest)
  | _ => true

/-- Every hop of the node path has an edge of kind `f`. -/
def chainFB (g : RepositoryGraph) (f : EdgeKind) : List Nat → Bool
  | u :: v :: rest => (stepEdges g u v).contains f && chainFB g f (v :: rest)
  | _ => true

def IsPathL (g : RepositoryGraph) (src tgt : Nat) (l : List Nat) : Prop :=
  l.head? = some src ∧ l.getLast? = some tgt ∧ chainB g l = true

/-- Some directed path connects `src` to `tgt`. -/
def Reach (g : RepositoryGraph) (src tgt : Nat) : Prop :=
  ∃ l, IsPathL g src tgt l

/-- Some path using only kind-`f` edges connects `src` to `tgt`. -/
def FilteredReach (g : RepositoryGraph) (f : EdgeKind) (src tgt : Nat) : Prop :=
  ∃ l, l.head? = some src ∧ l.getLast? = some tgt ∧ chainFB g f l = true

/-- Successors of `u` that are not on the current search path. -/
def succsNotVisited (g : RepositoryGraph) (u : Nat) (visited : List Nat) : List Nat :=
  (g.edges.filterMap (fun e => if e.1 = u then some e.2.1 else none)).filter
    (fun v => decide (v ∉ visited))

/-- All cycle-free paths from `u` to `tgt` avoiding `visited`. -/
def pathsAux (g : RepositoryGraph) : Nat → Nat → Nat → List Nat → List (List Nat)
  | fuel, u, tgt, visited =>
    if u = tgt then [[u]]
    else
      match fuel with
      | 0 => []
      | fuel' + 1 =>
        (succsNotVisited g u visited).flatMap (fun v =>
          (pathsAux g fuel' v tgt (u :: visited)).map (fun pth => u :: pth))

/-- A cycle-free path has at most one hop per distinct source node, hence at
most `edges.length` hops: that much fuel is always enough. -/
def allSimplePaths (g : RepositoryGraph) (src tgt : Nat) : List (List Nat) :=
  pathsAux g g.edges.length src tgt []

def minByCost (g : RepositoryGraph) (filt : Option EdgeKind) :
    List (List Nat) → Option (List Nat)
  | [] => none
  | l :: rest =>
    match minByCost g filt rest with
    | none => some l
    | some m => if pathCostN g filt l ≤ pathCostN g filt m then some l else some m

/-- One `astar` invocation inside `find_path`. -/
def astarModel (g : RepositoryGraph) (filt : Option EdgeKind) (src tgt : Nat) :
    Option (List Nat) :=
  minByCost g filt (allSimplePaths g src tgt)

/-- The inner loop of `find_path` over target candidates. -/
def findPathTgt (g : RepositoryGraph) (filt : Option EdgeKind) (src : Nat) :
    List Nat → Option (Nat × List Nat)
  | [] => none
  | tgt :: tgts =>
    match astarModel g filt src tgt with
    | some pth => some (tgt, pth)
    | none => findPathTgt g filt src tgts

/-- The outer loop of `find_path` over source candidates. -/
def findPathPair (g : RepositoryGraph) (filt : Option EdgeKind) :
    List Nat → List Nat → Option (Nat × Nat × List Nat)
  | [], _ => none
  | src :: srcs, tgts =>
    match findPathTgt g filt src tgts with
    | some r => some (src, r.1, r.2)
    | none => findPathPair g filt srcs tgts

/-- `RepositoryGraph::find_path`. -/
def findPath (g : RepositoryGraph) (source target : String)
    (edge_filter : Option EdgeKind) : Option (List String) :=
  let source_indices := (mget g.name_to_nodes source).getD []
  let target_indices := (mget g.name_to_nodes target).getD []
  match findPathPair g edge_filter source_indices target_indices with
  | some r => some (r.2.2.map (fun idx =>
      match getNode g idx with
      | some n => n.id
      | none => ""))
  | none => none

theorem foldl_min_le_init (cs : List Nat) (c : Nat) : cs.foldl min c ≤ c := by
  induction cs generalizing c with
  | nil => exact Nat.le_refl c
  | cons d cs ih =>
    rw [List.foldl_cons]
    exact Nat.le_trans (ih (min c d)) (Nat.min_le_left c d)

theorem foldl_min_le_mem (cs : List Nat) (c : Nat) (x : Nat) (h : x ∈ cs) :
    cs.foldl min c ≤ x := by
  induction cs generalizing c with
  | nil => cases h
  | cons d cs ih =>
    rw [List.foldl_cons]
    rcases List.mem_cons.mp h with rfl | h1
    · exact Nat.le_trans (foldl_min_le_init cs (min c x)) (Nat.min_le_right c x)
    · exact ih (min c d) h1

theorem le_foldl_min (cs : List Nat) (c m : Nat) (hc : m ≤ c) (h : ∀ x ∈ cs, m ≤ x) :
    m ≤ cs.foldl min c := by
  induction cs generalizing c with
  | nil => exact hc
  | cons d cs ih =>
    rw [List.foldl_cons]
    exact ih (min c d) (Nat.le_min.mpr ⟨hc, h d (List.mem_cons_self _ _)⟩)
      (fun x hx => h x (List.mem_cons_of_mem _ hx))

theorem stepCostN_le_one (g : RepositoryGraph) (f : EdgeKind) (u v : Nat)
    (h : f ∈ stepEdges g u v) : stepCostN g (some f) u v ≤ 1 := by
  have h1 : (1 : Nat) ∈ (stepEdges g u v).map (edgeWeight (some f)) := by
    refine List.mem_map.mpr ⟨f, h, ?_⟩
    simp [edgeWeight]
  unfold stepCostN
  cases hs : (stepEdges g u v).map (edgeWeight (some f)) with
  | nil => rw [hs] at h1; cases h1
  | cons c cs =>
    rw [hs] at h1
    show cs.foldl min c ≤ 1
    rcases List.mem_cons.mp h1 with h2 | h2
    · rw [← h2]
      exact foldl_min_le_init cs 1
    · exact foldl_min_le_mem cs c 1 h2

theorem stepCostN_ge_M (g : RepositoryGraph) (f : EdgeKind) (u v : Nat)
    (hne : stepEdges g u v ≠ []) (h : f ∉ stepEdges g u v) :
    usizeMaxHalf ≤ stepCostN g (some f) u v := by
  have hall : ∀ x ∈ (stepEdges g u v).map (edgeWeight (some f)), usizeMaxHalf ≤ x := by
    intro x hx
    rcases List.mem_map.mp hx with ⟨k, hk, hkx⟩
    have hkf : k ≠ f := fun hh => h (hh ▸ hk)
    rw [← hkx]
    simp [edgeWeight, hkf]
  unfold stepCostN
  cases hs : (stepEdges g u v).map (edgeWeight (some f)) with
  | nil =>
    exact absurd (List.map_eq_nil_iff.mp hs) hne
  | cons c cs =>
    rw [hs] at hall
    show usizeMaxHalf ≤ cs.foldl min c
    exact le_foldl_min cs c usizeMaxHalf (hall c (List.mem_cons_self _ _))
      (fun x hx => hall x (List.mem_cons_of_mem _ hx))

theorem pairsOf_nil : pairsOf [] = [] := rfl

theorem pairsOf_single (u : Nat) : pairsOf [u] = [] := rfl

theorem pairsOf_cons (u v : Nat) (rest : List Nat) :
    pairsOf (u :: v :: rest) = (u, v) :: pairsOf (v :: rest) := rfl

theorem pairsOf_append_right (a b : List Nat) : pairsOf b ⊆ pairsOf (a ++ b) := by
  induction a with
  | nil => exact fun x hx => hx
  | cons x a' ih =>
    intro pr hpr
    have h1 := ih hpr
    rw [List.cons_append]
    cases hab : a' ++ b with
    | nil =>
      rw [hab, pairsOf_nil] at h1
      cases h1
    | cons y t =>
      rw [hab] at h1
      rw [pairsOf_cons]
      exact List.mem_cons_of_mem _ h1

theorem chainB_iff_pairs (g : RepositoryGraph) (l : List Nat) :
    chainB g l = true ↔ ∀ pr ∈ pairsOf l, stepEdges g pr.1 pr.2 ≠ [] := by
  induction l with
  | nil => simp [chainB, pairsOf_nil]
  | cons u rest ih =>
    cases rest with
    | nil => simp [chainB, pairsOf_single]
    | cons v rest' =>
      rw [chainB, pairsOf_cons]
      rw [Bool.and_eq_true, ih]
      constructor
      · rintro ⟨h1, h2⟩ pr hpr
        rcases List.mem_cons.mp hpr with rfl | h3
        · intro hemp
          rw [hemp] at h1
          cases h1
        · exact h2 pr h3
      · intro h
        constructor
        · have h1 := h (u, v) (List.mem_cons_self _ _)
          simpa using h1
        · exact fun pr hpr => h pr (List.mem_cons_of_mem _ hpr)

theorem chainFB_iff_pairs (g : RepositoryGraph) (f : EdgeKind) (l : List Nat) :
    chainFB g f l = true ↔ ∀ pr ∈ pairsOf l, f ∈ stepEdges g pr.1 pr.2 := by
  induction l with
  | nil => simp [chainFB, pairsOf_nil]
  | cons u rest ih =>
    cases rest with
    | nil => simp [chainFB, pairsOf_single]
    | cons v rest' =>
      rw [chainFB, pairsOf_cons, Bool.and_eq_true, ih]
      constructor
      · rintro ⟨h1, h2⟩ pr hpr
        rcases List.mem_cons.mp hpr with rfl | h3
        · simpa using h1
        · exact h2 pr h3
      · intro h
        refine ⟨?_, fun pr hpr => h pr (List.mem_cons_of_mem _ hpr)⟩
        have h1 := h (u, v) (List.mem_cons_self _ _)
        simpa using h1

theorem chainFB_chainB (g : RepositoryGraph) (f : EdgeKind) (l : List Nat)
    (h : chainFB g f l = true) : chainB g l = true := by
  rw [chainB_iff_pairs]
  rw [chainFB_iff_pairs] at h
  intro pr hpr hemp
  have h1 := h pr hpr
  rw [hemp] at h1
  cases h1

theorem pathCostN_le_pairs (g : RepositoryGraph) (f : EdgeKind) (l : List Nat)
    (h : ∀ pr ∈ pairsOf l, f ∈ stepEdges g pr.1 pr.2) :
    pathCostN g (some f) l ≤ (pairsOf l).length := by
  induction l with
  | nil => simp [pathCostN, pairsOf_nil]
  | cons u rest ih =>
    cases rest with
    | nil => simp [pathCostN, pairsOf_single]
    | cons v rest' =>
      rw [pathCostN, pairsOf_cons, List.length_cons]
      have h1 := stepCostN_le_one g f u v (h (u, v) (by rw [pairsOf_cons]; exact List.mem_cons_self _ _))
      have h2 := ih (fun pr hpr => h pr (by rw [pairsOf_cons]; exact List.mem_cons_of_mem _ hpr))
      omega

theorem stepCost_le_pathCostN (g : RepositoryGraph) (filt : Option EdgeKind)
    (l : List Nat) (pr : Nat × Nat) (h : pr ∈ pairsOf l) :
    stepCostN g filt pr.1 pr.2 ≤ pathCostN g filt l := by
  induction l with
  | nil => rw [pairsOf_nil] at h; cases h
  | cons u rest ih =>
    cases rest with
    | nil => rw [pairsOf_single] at h; cases h
    | cons v rest' =>
      rw [pairsOf_cons] at h
      rw [pathCostN]
      rcases List.mem_cons.mp h with rfl | h1
      · exact Nat.le_add_right _ _
      · exact Nat.le_trans (ih h1) (Nat.le_add_left _ _)

theorem head_eq_last_of_nodup (l : List Nat) (hnd : l.Nodup) (x : Nat)
    (hh : l.head? = some x) (hl : l.getLast? = some x) : l = [x] := by
  cases l with
  | nil => cases hh
  | cons u rest =>
    have hu : u = x := by
      rw [List.head?_cons] at hh
      exact Option.some.inj hh
    subst hu
    cases rest with
    | nil => rfl
    | cons v rest' =>
      exfalso
      have h1 : (v :: rest').getLast? = some u := by
        rw [List.getLast?_cons_cons] at hl
        exact hl
      have h2 : u ∈ v :: rest' := by
        have := List.getLast?_eq_getLast (v :: rest') (by simp)
        rw [this] at h1
        rw [← Option.some.inj h1]
        exact List.getLast_mem _
      exact (List.nodup_cons.mp hnd).1 h2

theorem mem_dropLast_pairs (l : List Nat) (x : Nat) (h : x ∈ l.dropLast) :
    ∃ y, (x, y) ∈ pairsOf l := by
  induction l with
  | nil => cases h
  | cons u rest ih =>
    cases rest with
    | nil => cases h
    | cons v rest' =>
      rw [List.dropLast_cons₂] at h
      rcases List.mem_cons.mp h with rfl | h1
      · exact ⟨v, by rw [pairsOf_cons]; exact List.mem_cons_self _ _⟩
      · rcases ih h1 with ⟨y, hy⟩
        exact ⟨y, by rw [pairsOf_cons]; exact List.mem_cons_of_mem _ hy⟩

/-- A cycle-free chain has at most one hop per distinct source node, so at
most `edges.length` hops. -/
theorem simple_chain_length_bound (g : RepositoryGraph) (l : List Nat)
    (hnd : l.Nodup) (hch : chainB g l = true) : l.length - 1 ≤ g.edges.length := by
  have hsub : l.dropLast ⊆ g.edges.map (fun e => e.1) := by
    intro x hx
    rcases mem_dropLast_pairs l x hx with ⟨y, hy⟩
    have h1 := (chainB_iff_pairs g l).mp hch (x, y) hy
    have h2 : ∃ k, k ∈ stepEdges g x y := by
      cases hse : stepEdges g x y with
      | nil => exact absurd hse h1
      | cons k ks => exact ⟨k, List.mem_cons_self _ _⟩

    rcases h2 with ⟨k, hk⟩
    rcases List.mem_filterMap.mp hk with ⟨e, he, hek⟩
    have hx1 : e.1 = x := by
      by_cases hc : e.1 = x ∧ e.2.1 = y
      · exact hc.1
      · rw [if_neg hc] at hek
        cases hek
    exact List.mem_map.mpr ⟨e, he, hx1⟩
  have hnd' : l.dropLast.Nodup := List.Nodup.sublist (List.dropLast_sublist l) hnd
  have hlen : l.dropLast.length ≤ (g.edges.map (fun e => e.1)).length :=
    List.Subperm.length_le (List.subperm_of_subset hnd' hsub)
  rw [List.length_map, List.length_dropLast] at hlen
  exact hlen

/-- Remove cycles from a node path: after a repeated node, skip to the part
after its last occurrence. -/
def dedupPath : List Nat → List Nat
  | [] => []
  | u :: rest =>
    if u ∈ rest then
      u :: dedupPath ((rest.reverse.takeWhile (fun v => v != u)).reverse)
    else
      u :: dedupPath rest
termination_by l => l.length
decreasing_by
  · simp only [List.length_reverse, List.length_cons]
    refine Nat.lt_succ_of_le
      (le_trans (List.takeWhile_sublist _).length_le ?_)
    rw [List.length_reverse]
  · simp [Nat.lt_succ_iff]

theorem dropWhile_mem_decomp (u : Nat) (l : List Nat) (h : u ∈ l) :
    ∃ dw, l.dropWhile (fun v => v != u) = u :: dw := by
  induction l with
  | nil => cases h
  | cons x t ih =>
    by_cases hx : x = u
    · subst hx
      refine ⟨t, ?_⟩
      rw [List.dropWhile_cons]
      simp
    · have h1 : u ∈ t := by
        rcases List.mem_cons.mp h with h2 | h2
        · exact absurd h2.symm hx
        · exact h2
      rcases ih h1 with ⟨dw, hdw⟩
      refine ⟨dw, ?_⟩
      rw [List.dropWhile_cons, if_pos (by simp [hx]), hdw]

theorem dedupPath_nil : dedupPath [] = [] := by
  rw [dedupPath]

theorem dedupPath_cons_mem (u : Nat) (rest : List Nat) (h : u ∈ rest) :
    dedupPath (u :: rest) =
      u :: dedupPath ((rest.reverse.takeWhile (fun v => v != u)).reverse) := by
  rw [dedupPath, if_pos h]

theorem dedupPath_cons_not_mem (u : Nat) (rest : List Nat) (h : u ∉ rest) :
    dedupPath (u :: rest) = u :: dedupPath rest := by
  rw [dedupPath, if_neg h]

theorem getLast?_append_right (a b : List Nat) (h : b ≠ []) :
    (a ++ b).getLast? = b.getLast? := by
  rw [List.getLast?_append]
  cases hb : b.getLast? with
  | none =>
    rw [List.getLast?_eq_getLast b h] at hb
    cases hb
  | some x => rfl

theorem dedupPath_spec : ∀ (n : Nat) (l : List Nat), l.length ≤ n →
    (dedupPath l).Nodup ∧ (dedupPath l).head? = l.head? ∧
    (dedupPath l).getLast? = l.getLast? ∧ pairsOf (dedupPath l) ⊆ pairsOf l ∧
    dedupPath l ⊆ l := by
  intro n
  induction n with
  | zero =>
    intro l hl
    have h0 : l = [] := List.length_eq_zero.mp (Nat.le_zero.mp hl)
    subst h0
    rw [dedupPath_nil]
    exact ⟨List.nodup_nil, rfl, rfl, fun x hx => hx, fun x hx => hx⟩
  | succ n ih =>
    intro l hl
    cases l with
    | nil =>
      rw [dedupPath_nil]
      exact ⟨List.nodup_nil, rfl, rfl, fun x hx => hx, fun x hx => hx⟩
    | cons u rest =>
      rw [List.length_cons, Nat.succ_le_succ_iff] at hl
      by_cases hmem : u ∈ rest
      · obtain ⟨dw, hdw⟩ := dropWhile_mem_decomp u rest.reverse
          (by rw [List.mem_reverse]; exact hmem)
        have hrest : rest = (dw.reverse ++ [u]) ++
            (rest.reverse.takeWhile (fun v => v != u)).reverse := by
          conv_lhs => rw [← List.reverse_reverse rest]
          conv_lhs =>
            rw [← List.takeWhile_append_dropWhile
              (p := fun v => v != u) (l := rest.reverse)]
          rw [hdw, List.reverse_append, List.reverse_cons, List.append_assoc]
        have htlen : (rest.reverse.takeWhile (fun v => v != u)).reverse.length ≤ n := by
          rw [List.length_reverse]
          have h := (List.takeWhile_sublist (fun v => v != u) (l := rest.reverse)).length_le
          rw [List.length_reverse] at h
          omega
        have hind := ih (rest.reverse.takeWhile (fun v => v != u)).reverse htlen
        have hrw : dedupPath (u :: rest) =
            u :: dedupPath (rest.reverse.takeWhile (fun v => v != u)).reverse :=
          dedupPath_cons_mem u rest hmem
        have hunotin : u ∉ (rest.reverse.takeWhile (fun v => v != u)).reverse := by
          intro hc
          rw [List.mem_reverse] at hc
          have h2 := List.mem_takeWhile_imp hc
          simp at h2
        have hltail : u :: rest = (u :: dw.reverse) ++
            (u :: (rest.reverse.takeWhile (fun v => v != u)).reverse) := by
          conv_lhs => rw [hrest]
          simp
        have htsub : (rest.reverse.takeWhile (fun v => v != u)).reverse ⊆ rest := by
          intro z hz
          rw [List.mem_reverse] at hz
          have h3 := (List.takeWhile_sublist (fun v => v != u)).subset hz
          rw [List.mem_reverse] at h3
          exact h3
        refine ⟨?_, ?_, ?_, ?_, ?_⟩
        · rw [hrw]
          exact List.nodup_cons.mpr ⟨fun hc => hunotin (hind.2.2.2.2 hc), hind.1⟩
        · rw [hrw]
          rfl
        · rw [hrw]
          cases hte : (rest.reverse.takeWhile (fun v => v != u)).reverse with
          | nil =>
            rw [dedupPath_nil]
            rw [hte] at hrest
            rw [List.append_nil] at hrest
            have h4 : u :: rest = (u :: dw.reverse) ++ [u] := by
              rw [hrest]
              simp
            rw [h4, List.getLast?_concat]
            rfl
          | cons y t2 =>
            rw [hte] at hind hltail
            have hhead : (dedupPath (y :: t2)).head? = some y := hind.2.1
            cases hde : dedupPath (y :: t2) with
            | nil => rw [hde] at hhead; cases hhead
            | cons z d2 =>
              rw [List.getLast?_cons_cons]
              have h5 : (z :: d2).getLast? = (y :: t2).getLast? := by
                rw [← hde]
                exact hind.2.2.1
              rw [h5]
              rw [hltail]
              rw [getLast?_append_right _ _ (by simp)]
              rw [List.getLast?_cons_cons]
        · rw [hrw]
          cases hte : (rest.reverse.takeWhile (fun v => v != u)).reverse with
          | nil =>
            rw [dedupPath_nil]
            intro pr hpr
            rw [pairsOf_single] at hpr
            cases hpr
          | cons y t2 =>
            rw [hte] at hind hltail
            have hhead : (dedupPath (y :: t2)).head? = some y := hind.2.1
            cases hde : dedupPath (y :: t2) with
            | nil => rw [hde] at hhead; cases hhead
            | cons z d2 =>
              have hz : z = y := by
                rw [hde] at hhead
                exact Option.some.inj hhead
              subst hz
              rw [pairsOf_cons]
              intro pr hpr
              rcases List.mem_cons.mp hpr with rfl | h7
              · rw [hltail]
                refine pairsOf_append_right _ _ ?_
                rw [pairsOf_cons]
                exact List.mem_cons_self _ _
              · have h8 : pr ∈ pairsOf (z :: t2) :=
                  hind.2.2.2.1 (by rw [hde]; exact h7)
                rw [hltail]
                refine pairsOf_append_right _ _ ?_
                rw [pairsOf_cons]
                exact List.mem_cons_of_mem _ h8
        · rw [hrw]
          intro x hx
          rcases List.mem_cons.mp hx with rfl | h9
          · exact List.mem_cons_self _ _
          · exact List.mem_cons_of_mem _ (htsub (hind.2.2.2.2 h9))
      · have hind := ih rest hl
        have hrw : dedupPath (u :: rest) = u :: dedupPath rest :=
          dedupPath_cons_not_mem u rest hmem
        refine ⟨?_, ?_, ?_, ?_, ?_⟩
        · rw [hrw]
          exact List.nodup_cons.mpr ⟨fun hc => hmem (hind.2.2.2.2 hc), hind.1⟩
        · rw [hrw]
          rfl
        · rw [hrw]
          cases hre : rest with
          | nil =>
            rw [dedupPath_nil]
          | cons y t2 =>
            rw [hre] at hind
            have hhead : (dedupPath (y :: t2)).head? = some y := hind.2.1
            cases hde : dedupPath (y :: t2) with
            | nil => rw [hde] at hhead; cases hhead
            | cons z d2 =>
              rw [List.getLast?_cons_cons, List.getLast?_cons_cons]
              rw [← hde]
              exact hind.2.2.1
        · rw [hrw]
          cases hre : rest with
          | nil =>
            rw [dedupPath_nil]
            intro pr hpr
            rw [pairsOf_single] at hpr
            cases hpr
          | cons y t2 =>
            rw [hre] at hind
            have hhead : (dedupPath (y :: t2)).head? = some y := hind.2.1
            cases hde : dedupPath (y :: t2) with
            | nil => rw [hde] at hhead; cases hhead
            | cons z d2 =>
              have hz : z = y := by
                rw [hde] at hhead
                exact Option.some.inj hhead
              subst hz
              rw [pairsOf_cons]
              intro pr hpr
              rcases List.mem_cons.mp hpr with rfl | h7
              · rw [pairsOf_cons]
                exact List.mem_cons_self _ _
              · have h8 : pr ∈ pairsOf (z :: t2) :=
                  hind.2.2.2.1 (by rw [hde]; exact h7)
                rw [pairsOf_cons]
                exact List.mem_cons_of_mem _ h8
        · rw [hrw]
          intro x hx
          rcases List.mem_cons.mp hx with rfl | h9
          · exact List.mem_cons_self _ _
          · exact List.mem_cons_of_mem _ (hind.2.2.2.2 h9)

theorem pairsOf_length (l : List Nat) : (pairsOf l).length = l.length - 1 := by
  unfold pairsOf
  rw [List.length_zip, List.length_tail]
  omega

theorem minByCost_eq_none_iff (g : RepositoryGraph) (filt : Option EdgeKind)
    (L : List (List Nat)) : minByCost g filt L = none ↔ L = [] := by
  cases L with
  | nil => simp [minByCost]
  | cons l rest =>
    rw [minByCost]
    constructor
    · intro hc
      cases hrec : minByCost g filt rest with
      | none => rw [hrec] at hc; cases hc
      | some m =>
        rw [hrec] at hc
        dsimp only at hc
        by_cases hle : pathCostN g filt l ≤ pathCostN g filt m
        · rw [if_pos hle] at hc; cases hc
        · rw [if_neg hle] at hc; cases hc
    · intro hc; cases hc

theorem minByCost_mem (g : RepositoryGraph) (filt : Option EdgeKind)
    (L : List (List Nat)) (m : List Nat) (h : minByCost g filt L = some m) :
    m ∈ L := by
  induction L generalizing m with
  | nil => cases h
  | cons l rest ih =>
    rw [minByCost] at h
    cases hrec : minByCost g filt rest with
    | none =>
      rw [hrec] at h
      dsimp only at h
      exact List.mem_cons.mpr (Or.inl (Option.some.inj h).symm)
    | some m0 =>
      rw [hrec] at h
      dsimp only at h
      by_cases hle : pathCostN g filt l ≤ pathCostN g filt m0
      · rw [if_pos hle] at h
        exact List.mem_cons.mpr (Or.inl (Option.some.inj h).symm)
      · rw [if_neg hle] at h
        have hm : m0 = m := Option.some.inj h
        exact List.mem_cons.mpr (Or.inr (ih m (hm ▸ hrec)))

theorem minByCost_min (g : RepositoryGraph) (filt : Option EdgeKind)
    (L : List (List Nat)) (m : List Nat) (h : minByCost g filt L = some m) :
    ∀ l ∈ L, pathCostN g filt m ≤ pathCostN g filt l := by
  induction L generalizing m with
  | nil => cases h
  | cons l0 rest ih =>
    rw [minByCost] at h
    cases hrec : minByCost g filt rest with
    | none =>
      rw [hrec] at h
      dsimp only at h
      have hl0 : l0 = m := Option.some.inj h
      subst hl0
      intro l hl
      rcases List.mem_cons.mp hl with rfl | h1
      · exact Nat.le_refl _
      · have hemp : rest = [] := (minByCost_eq_none_iff g filt rest).mp hrec
        rw [hemp] at h1
        cases h1
    | some m0 =>
      rw [hrec] at h
      dsimp only at h
      by_cases hle : pathCostN g filt l0 ≤ pathCostN g filt m0
      · rw [if_pos hle] at h
        have hl0 : l0 = m := Option.some.inj h
        subst hl0
        intro l hl
        rcases List.mem_cons.mp hl with rfl | h1
        · exact Nat.le_refl _
        · exact Nat.le_trans hle (ih m0 hrec l h1)
      · rw [if_neg hle] at h
        have hm : m0 = m := Option.some.inj h
        subst hm
        intro l hl
        rcases List.mem_cons.mp hl with rfl | h1
        · exact Nat.le_of_lt (Nat.lt_of_not_le hle)
        · exact ih m0 hrec l h1

theorem mem_succsNotVisited (g : RepositoryGraph) (u v : Nat) (visited : List Nat) :
    v ∈ succsNotVisited g u visited ↔ stepEdges g u v ≠ [] ∧ v ∉ visited := by
  unfold succsNotVisited
  rw [List.mem_filter]
  constructor
  · rintro ⟨h1, h2⟩
    refine ⟨?_, by simpa using h2⟩
    rcases List.mem_filterMap.mp h1 with ⟨e, he, hue⟩
    have he1 : e.1 = u := by
      by_cases hc2 : e.1 = u
      · exact hc2
      · rw [if_neg hc2] at hue; cases hue
    have he2 : e.2.1 = v := by
      rw [if_pos he1] at hue
      exact Option.some.inj hue
    intro hemp
    have hk : e.2.2 ∈ stepEdges g u v :=
      List.mem_filterMap.mpr ⟨e, he, by rw [if_pos ⟨he1, he2⟩]⟩
    rw [hemp] at hk
    cases hk
  · rintro ⟨h1, h2⟩
    refine ⟨?_, by simpa using h2⟩
    cases hse : stepEdges g u v with
    | nil => exact absurd hse h1
    | cons k ks =>
      have hk : k ∈ stepEdges g u v := by rw [hse]; exact List.mem_cons_self _ _
      rcases List.mem_filterMap.mp hk with ⟨e, he, hek⟩
      have he3 : e.1 = u ∧ e.2.1 = v := by
        by_cases hc2 : e.1 = u ∧ e.2.1 = v
        · exact hc2
        · rw [if_neg hc2] at hek; cases hek
      exact List.mem_filterMap.mpr ⟨e, he, by rw [if_pos he3.1, he3.2]⟩

theorem pathsAux_sound (g : RepositoryGraph) :
    ∀ (fuel u tgt : Nat) (visited : List Nat) (pth : List Nat),
    pth ∈ pathsAux g fuel u tgt visited →
    pth.head? = some u ∧ pth.getLast? = some tgt ∧ chainB g pth = true := by
  intro fuel
  induction fuel with
  | zero =>
    intro u tgt visited pth h
    rw [pathsAux] at h
    by_cases he : u = tgt
    · rw [if_pos he] at h
      have hp : pth = [u] := by simpa using h
      subst hp
      exact ⟨rfl, by rw [he]; rfl, rfl⟩
    · rw [if_neg he] at h
      cases h
  | succ fuel ih =>
    intro u tgt visited pth h
    rw [pathsAux] at h
    by_cases he : u = tgt
    · rw [if_pos he] at h
      have hp : pth = [u] := by simpa using h
      subst hp
      exact ⟨rfl, by rw [he]; rfl, rfl⟩
    · rw [if_neg he] at h
      rcases List.mem_flatMap.mp h with ⟨v, hv, hpv⟩
      rcases List.mem_map.mp hpv with ⟨pth2, hp2, hp2e⟩
      subst hp2e
      obtain ⟨hh, hl, hc⟩ := ih v tgt (u :: visited) pth2 hp2
      cases pth2 with
      | nil => cases hh
      | cons w t =>
        have hw : w = v := by
          rw [List.head?_cons] at hh
          exact Option.some.inj hh
        subst hw
        refine ⟨rfl, by rw [List.getLast?_cons_cons]; exact hl, ?_⟩
        rw [chainB, Bool.and_eq_true]
        refine ⟨?_, hc⟩
        have hne : stepEdges g u w ≠ [] :=
          ((mem_succsNotVisited g u w visited).mp hv).1
        cases hse : stepEdges g u w with
        | nil => exact absurd hse hne
        | cons k ks => rfl


theorem pathsAux_complete (g : RepositoryGraph) (tgt : Nat) :
    ∀ (l : List Nat) (fuel u : Nat) (visited : List Nat),
    l.head? = some u → l.getLast? = some tgt → chainB g l = true → l.Nodup →
    (∀ x ∈ l, x ∉ visited) → l.length ≤ fuel + 1 →
    l ∈ pathsAux g fuel u tgt visited := by
  intro l
  induction l with
  | nil =>
    intro fuel u visited hh _ _ _ _ _
    cases hh
  | cons u0 rest ih =>
    intro fuel u visited hh hlast hch hnd hvis hlen
    have hu : u0 = u := by
      rw [List.head?_cons] at hh
      exact Option.some.inj hh
    subst hu
    rw [pathsAux.eq_def]
    dsimp only
    by_cases he : u0 = tgt
    · rw [if_pos he]
      have hl1 : u0 :: rest = [u0] :=
        head_eq_last_of_nodup _ hnd u0 (by rw [List.head?_cons])
          (by rw [he] at hlast ⊢; exact hlast)
      rw [hl1]
      exact List.mem_cons_self _ _
    · rw [if_neg he]
      cases rest with
      | nil =>
        exfalso
        have h1 : u0 = tgt := by simpa using hlast
        exact he h1
      | cons v rest2 =>
        cases fuel with
        | zero =>
          exfalso
          rw [List.length_cons, List.length_cons] at hlen
          omega
        | succ fuel2 =>
          refine List.mem_flatMap.mpr ⟨v, ?_, ?_⟩
          · refine (mem_succsNotVisited g u0 v visited).mpr ⟨?_, ?_⟩
            · rw [chainB, Bool.and_eq_true] at hch
              intro hemp
              have h2 := hch.1
              rw [hemp] at h2
              cases h2
            · exact hvis v (List.mem_cons_of_mem _ (List.mem_cons_self _ _))
          · refine List.mem_map.mpr ⟨v :: rest2, ?_, rfl⟩
            refine ih fuel2 v (u0 :: visited) rfl ?_ ?_ ?_ ?_ ?_
            · rw [List.getLast?_cons_cons] at hlast
              exact hlast
            · rw [chainB, Bool.and_eq_true] at hch
              exact hch.2
            · exact (List.nodup_cons.mp hnd).2
            · intro x hx hx2
              rcases List.mem_cons.mp hx2 with rfl | h3
              · exact (List.nodup_cons.mp hnd).1 hx
              · exact hvis x (List.mem_cons_of_mem _ hx) h3
            · rw [List.length_cons, List.length_cons] at hlen
              rw [List.length_cons]
              omega

theorem astarModel_none_iff (g : RepositoryGraph) (filt : Option EdgeKind)
    (src tgt : Nat) : astarModel g filt src tgt = none ↔ ¬ Reach g src tgt := by
  unfold astarModel
  rw [minByCost_eq_none_iff]
  constructor
  · intro hemp hr
    obtain ⟨l, hh, hl, hc⟩ := hr
    obtain ⟨hnd, hh2, hl2, hps, hsub⟩ := dedupPath_spec l.length l (Nat.le_refl _)
    have hch2 : chainB g (dedupPath l) = true := by
      rw [chainB_iff_pairs]
      intro pr hpr
      exact (chainB_iff_pairs g l).mp hc pr (hps hpr)
    have hbound := simple_chain_length_bound g (dedupPath l) hnd hch2
    have hmem : dedupPath l ∈ allSimplePaths g src tgt := by
      refine pathsAux_complete g tgt (dedupPath l) g.edges.length src []
        (by rw [hh2]; exact hh) (by rw [hl2]; exact hl) hch2 hnd
        (fun x _ hx2 => by cases hx2) (by omega)
    rw [hemp] at hmem
    cases hmem
  · intro hnr
    by_contra hne
    rcases List.exists_mem_of_ne_nil _ hne with ⟨p, hp⟩
    obtain ⟨hh, hl, hc⟩ := pathsAux_sound g g.edges.length src tgt [] p hp
    exact hnr ⟨p, hh, hl, hc⟩

theorem astarModel_filtered (g : RepositoryGraph) (f : EdgeKind) (src tgt : Nat)
    (hM : g.edges.length < usizeMaxHalf) (m : List Nat)
    (h : astarModel g (some f) src tgt = some m)
    (hfr : FilteredReach g f src tgt) : chainFB g f m = true := by
  unfold astarModel at h
  obtain ⟨l, hh, hl, hcf⟩ := hfr
  obtain ⟨hnd, hh2, hl2, hps, hsub⟩ := dedupPath_spec l.length l (Nat.le_refl _)
  have hcf2 : chainFB g f (dedupPath l) = true := by
    rw [chainFB_iff_pairs]
    intro pr hpr
    exact (chainFB_iff_pairs g f l).mp hcf pr (hps hpr)
  have hcb2 := chainFB_chainB g f _ hcf2
  have hbound := simple_chain_length_bound g (dedupPath l) hnd hcb2
  have hmem : dedupPath l ∈ allSimplePaths g src tgt := by
    refine pathsAux_complete g tgt (dedupPath l) g.edges.length src []
      (by rw [hh2]; exact hh) (by rw [hl2]; exact hl) hcb2 hnd
      (fun x _ hx2 => by cases hx2) (by omega)
  have hcost : pathCostN g (some f) (dedupPath l) < usizeMaxHalf := by
    have h1 := pathCostN_le_pairs g f (dedupPath l)
      ((chainFB_iff_pairs g f _).mp hcf2)
    have h2 := pairsOf_length (dedupPath l)
    omega
  have hmin := minByCost_min g (some f) _ m h (dedupPath l) hmem
  have hmmem := minByCost_mem g (some f) _ m h
  obtain ⟨hmh, hml, hmc⟩ := pathsAux_sound g g.edges.length src tgt [] m hmmem
  rw [chainFB_iff_pairs]
  intro pr hpr
  by_contra hnf
  have hne : stepEdges g pr.1 pr.2 ≠ [] := (chainB_iff_pairs g m).mp hmc pr hpr
  have h4 := stepCostN_ge_M g f pr.1 pr.2 hne hnf
  have h5 := stepCost_le_pathCostN g (some f) m pr hpr
  omega

theorem findPathTgt_none_iff (g : RepositoryGraph) (filt : Option EdgeKind)
    (src : Nat) (tgts : List Nat) :
    findPathTgt g filt src tgts = none ↔
    ∀ tgt ∈ tgts, astarModel g filt src tgt = none := by
  induction tgts with
  | nil => simp [findPathTgt]
  | cons t ts ih =>
    rw [findPathTgt]
    cases ha : astarModel g filt src t with
    | some p =>
      constructor
      · intro hc; cases hc
      · intro hall
        have h1 := hall t (List.mem_cons_self _ _)
        rw [ha] at h1
        cases h1
    | none =>
      constructor
      · intro h1 tgt htgt
        rcases List.mem_cons.mp htgt with rfl | h2
        · exact ha
        · exact ih.mp h1 tgt h2
      · intro hall
        exact ih.mpr (fun tgt ht => hall tgt (List.mem_cons_of_mem _ ht))

theorem findPathTgt_some (g : RepositoryGraph) (filt : Option EdgeKind)
    (src : Nat) (tgts : List Nat) (tgt : Nat) (pth : List Nat)
    (h : findPathTgt g filt src tgts = some (tgt, pth)) :
    tgt ∈ tgts ∧ astarModel g filt src tgt = some pth := by
  induction tgts with
  | nil => cases h
  | cons t ts ih =>
    rw [findPathTgt] at h
    cases ha : astarModel g filt src t with
    | some p =>
      rw [ha] at h
      dsimp only at h
      have h1 : (t, p) = (tgt, pth) := Option.some.inj h
      have h2 : t = tgt := congrArg Prod.fst h1
      have h3 : p = pth := congrArg Prod.snd h1
      subst h2
      subst h3
      exact ⟨List.mem_cons_self _ _, ha⟩
    | none =>
      rw [ha] at h
      dsimp only at h
      obtain ⟨h1, h2⟩ := ih h
      exact ⟨List.mem_cons_of_mem _ h1, h2⟩

theorem findPathPair_none_iff (g : RepositoryGraph) (filt : Option EdgeKind)
    (srcs tgts : List Nat) :
    findPathPair g filt srcs tgts = none ↔
    ∀ src ∈ srcs, ∀ tgt ∈ tgts, astarModel g filt src tgt = none := by
  induction srcs with
  | nil => simp [findPathPair]
  | cons s ss ih =>
    rw [findPathPair]
    cases ha : findPathTgt g filt s tgts with
    | some r =>
      constructor
      · intro hc; cases hc
      · intro hall
        have h1 : findPathTgt g filt s tgts = none :=
          (findPathTgt_none_iff g filt s tgts).mpr (hall s (List.mem_cons_self _ _))
        rw [ha] at h1
        cases h1
    | none =>
      constructor
      · intro h1 src hs tgt ht
        rcases List.mem_cons.mp hs with rfl | h2
        · exact (findPathTgt_none_iff g filt src tgts).mp ha tgt ht
        · exact ih.mp h1 src h2 tgt ht
      · intro hall
        exact ih.mpr (fun src hs tgt ht => hall src (List.mem_cons_of_mem _ hs) tgt ht)

theorem findPathPair_some (g : RepositoryGraph) (filt : Option EdgeKind)
    (srcs tgts : List Nat) (src tgt : Nat) (pth : List Nat)
    (h : findPathPair g filt srcs tgts = some (src, tgt, pth)) :
    src ∈ srcs ∧ tgt ∈ tgts ∧ astarModel g filt src tgt = some pth := by
  induction srcs with
  | nil => cases h
  | cons s ss ih =>
    rw [findPathPair] at h
    cases ha : findPathTgt g filt s tgts with
    | some r =>
      rw [ha] at h
      dsimp only at h
      have h1 : (s, r.1, r.2) = (src, tgt, pth) := Option.some.inj h
      have h2 : s = src := congrArg Prod.fst h1
      have h3 : r.1 = tgt := congrArg (fun x => x.2.1) h1
      have h4 : r.2 = pth := congrArg (fun x => x.2.2) h1
      subst h2
      obtain ⟨h5, h6⟩ := findPathTgt_some g filt s tgts r.1 r.2 (by rw [ha])
      rw [h3, h4] at h6
      exact ⟨List.mem_cons_self _ _, h3 ▸ h5, h6⟩
    | none =>
      rw [ha] at h
      dsimp only at h
      obtain ⟨h1, h2, h3⟩ := ih h
      exact ⟨List.mem_cons_of_mem _ h1, h2, h3⟩

/-- C3: when `edge_filter` is set, the path returned by `find_path` uses only
filter-kind edges whenever some all-filter path exists between the chosen
source/target candidate pair (other kinds only carry the prohibitive weight
`usize::MAX / 2`, so they are never chosen unless no filtered path exists);
and `find_path` returns `None` exactly when no path at all exists for any
(source candidate, target candidate) pair. -/
theorem find_path_edge_filter (g : RepositoryGraph) (source target : String)
    (filt : Option EdgeKind) (f : EdgeKind)
    (hM : g.edges.length < usizeMaxHalf) :
    (findPath g source target filt = none ↔
      ∀ src ∈ (mget g.name_to_nodes source).getD [],
        ∀ tgt ∈ (mget g.name_to_nodes target).getD [],
          ¬ Reach g src tgt) ∧
    (∀ src tgt pth,
      findPathPair g (some f) ((mget g.name_to_nodes source).getD [])
          ((mget g.name_to_nodes target).getD []) = some (src, tgt, pth) →
      pth.head? = some src ∧ pth.getLast? = some tgt ∧ chainB g pth = true ∧
      (FilteredReach g f src tgt → chainFB g f pth = true)) := by
  constructor
  · rw [findPath]
    constructor
    · intro hn src hs tgt ht
      cases hp : findPathPair g filt ((mget g.name_to_nodes source).getD [])
          ((mget g.name_to_nodes target).getD []) with
      | some r =>
        rw [hp] at hn
        dsimp only at hn
        cases hn
      | none =>
        exact (astarModel_none_iff g filt src tgt).mp
          ((findPathPair_none_iff g filt _ _).mp hp src hs tgt ht)
    · intro hall
      have hp : findPathPair g filt ((mget g.name_to_nodes source).getD [])
          ((mget g.name_to_nodes target).getD []) = none :=
        (findPathPair_none_iff g filt _ _).mpr
          (fun src hs tgt ht =>
            (astarModel_none_iff g filt src tgt).mpr (hall src hs tgt ht))
      rw [hp]
  · intro src tgt pth hp
    obtain ⟨hs, ht, ha⟩ := findPathPair_some g (some f) _ _ src tgt pth hp
    have hfil : FilteredReach g f src tgt → chainFB g f pth = true :=
      fun hfr => astarModel_filtered g f src tgt hM pth ha hfr
    unfold astarModel at ha
    have hmmem := minByCost_mem g (some f) _ pth ha
    unfold allSimplePaths at hmmem
    obtain ⟨hh, hl, hc⟩ := pathsAux_sound g g.edges.length src tgt [] pth hmmem
    exact ⟨hh, hl, hc, hfil⟩

def nodeFixP0 : GraphNode :=
  { id := "s_a", kind := NodeKind.Function, name := "s", file_path := "a.py"
    start_line := 1, end_line := 2 }

def nodeFixP1 : GraphNode :=
  { id := "m_a", kind := NodeKind.Function, name := "m", file_path := "a.py"
    start_line := 3, end_line := 4 }

def nodeFixP2 : GraphNode :=
  { id := "t_a", kind := NodeKind.Function, name := "t", file_path := "a.py"
    start_line := 5, end_line := 6 }

/-- Three nodes: an `Imports` chain `0 → 1 → 2` plus a direct `Calls` edge
`0 → 2`. -/
def graphFixtureP : RepositoryGraph :=
  { nodes := [(0, nodeFixP0), (1, nodeFixP1), (2, nodeFixP2)]
    next_index := 3
    edges := [(0, 1, EdgeKind.Imports), (1, 2, EdgeKind.Imports),
      (0, 2, EdgeKind.Calls)]
    id_to_node := [("s_a", 0), ("m_a", 1), ("t_a", 2)]
    name_to_nodes := [("s", [0]), ("m", [1]), ("t", [2])]
    file_to_nodes := [("a.py", [0, 1, 2])]
    element_arena := []
    file_imports := []
    global_index := GlobalIndex.new }

/-- On the fixture, the filtered search takes the two-hop `Imports` chain and
skips the direct `Calls` edge. -/
theorem findPath_fixtureP_filtered :
    findPath graphFixtureP "s" "t" (some EdgeKind.Imports) =
      some ["s_a", "m_a", "t_a"] := by decide

theorem find_path_edge_filter_witness :
    graphFixtureP.edges.length < usizeMaxHalf ∧
    ((findPath graphFixtureP "s" "t" (some EdgeKind.Imports) = none ↔
      ∀ src ∈ (mget graphFixtureP.name_to_nodes "s").getD [],
        ∀ tgt ∈ (mget graphFixtureP.name_to_nodes "t").getD [],
          ¬ Reach graphFixtureP src tgt) ∧
    (∀ src tgt pth,
      findPathPair graphFixtureP (some EdgeKind.Imports)
          ((mget graphFixtureP.name_to_nodes "s").getD [])
          ((mget graphFixtureP.name_to_nodes "t").getD []) =
            some (src, tgt, pth) →
      pth.head? = some src ∧ pth.getLast? = some tgt ∧
      chainB graphFixtureP pth = true ∧
      (FilteredReach graphFixtureP EdgeKind.Imports src tgt →
        chainFB graphFixtureP EdgeKind.Imports pth = true))) :=
  ⟨by decide, find_path_edge_filter graphFixtureP "s" "t"
    (some EdgeKind.Imports) EdgeKind.Imports (by decide)⟩

end Happy
